import Mathlib

/-!
# The xv6 physical page allocator with per-frame reference counts (`kalloc.c`)

A shallow embedding of `kalloc.c`.  The allocator's global `kmem` becomes a
record; the pages it manages live in a byte-addressed memory, and the free
list is intrusive exactly as in the source: the `next` pointer of a free page
is stored in the first four bytes of the page itself.

Conventions.

* Addresses, `uint` values and table entries are natural numbers; 32-bit
  arithmetic is written out with `% 2 ^ 32`.
* Pointers are four bytes wide and stored little-endian, as on the x86 machine
  xv6 runs on; a page address converted to `struct run *` names its first word.
* The spin lock is not part of the state: the embedding is sequential, every
  operation starts and ends with the lock free.
* `panic` stops the kernel.  An operation that panics yields
  `Outcome.panicked msg s`, where `s` is the allocator state at that moment.
* The source spells the global `knem` in three places; as the specification
  notes this is the single allocator state `kmem`.
-/

namespace Kalloc

/-! ## Platform constants -/

/-- Modelled from the spec: `PAGE_SIZE = 4096` (the macro `PGSIZE` of `mmu.h`). -/
def PGSIZE : Nat := 4096

/-- Modelled from the spec: `PAGE_SHIFT = 12` (the macro `PGSHIFT` of `mmu.h`). -/
def PGSHIFT : Nat := 12

/-- The constants `kalloc.c` takes from `memlayout.h` and from the linker script:
`KERNBASE`, the offset of the kernel's direct map; `PHYSTOP`, the exclusive
physical-memory ceiling; `kend`, the address of the linker symbol `end`. -/
structure Layout where
  KERNBASE : Nat
  PHYSTOP : Nat
  kend : Nat

/-- The layout xv6 ships with (`KERNBASE = 0x80000000`, `PHYSTOP = 0xE000000`),
with the kernel image ending at `0x80116000`.  Used for concrete evaluations. -/
def xv6 : Layout := ⟨0x80000000, 0xE000000, 0x80116000⟩

/-- Modelled from the spec: the macro `V2P` of `memlayout.h`,
`phys = virt − KERNBASE`, computed on 32-bit unsigned integers. -/
def V2P (L : Layout) (a : Nat) : Nat :=
  (a + (2 ^ 32 - L.KERNBASE % 2 ^ 32)) % 2 ^ 32

/-- Modelled from the spec: the macro `PGROUNDUP` of `mmu.h`, rounding a 32-bit
address up to a page boundary (the result is again a 32-bit value). -/
def PGROUNDUP (a : Nat) : Nat :=
  ((a + PGSIZE - 1) / PGSIZE * PGSIZE) % 2 ^ 32

/-- The index `V2P(v) >> PGSHIFT` of the page at virtual address `v` in the
reference-count table. -/
def pfn (L : Layout) (v : Nat) : Nat := V2P L v >>> PGSHIFT

/-- The `uint` decrement `--x`. -/
def dec32 (x : Nat) : Nat := (x + (2 ^ 32 - 1)) % 2 ^ 32

/-- The `uint` increment `++x`. -/
def inc32 (x : Nat) : Nat := (x + 1) % 2 ^ 32

/-! ## Memory -/

/-- Byte-addressed memory: the value of the byte at each address. -/
abbrev Mem := Nat → Nat

/-- Read the 32-bit little-endian word at `a`: the field `next` of the
`struct run` at `a`. -/
def load32 (m : Mem) (a : Nat) : Nat :=
  m a + 256 * m (a + 1) + 65536 * m (a + 2) + 16777216 * m (a + 3)

/-- Write the 32-bit little-endian word `w` at `a`. -/
def store32 (m : Mem) (a w : Nat) : Mem := fun x =>
  if x = a then w % 256
  else if x = a + 1 then w / 256 % 256
  else if x = a + 2 then w / 65536 % 256
  else if x = a + 3 then w / 16777216 % 256
  else m x

/-- The library routine `memset(dst, c, n)`. -/
def memset (m : Mem) (dst c n : Nat) : Mem := fun x =>
  if dst ≤ x ∧ x < dst + n then c else m x

/-! ## Allocator state -/

/-- The global `kmem` (without its lock) together with the memory holding the
pages.  `freelist` is the head pointer, `0` for the null pointer.  An entry of
`pagerefcount` at an index past the end of the table stands for the word the
same distance past the table in memory. -/
structure Kmem where
  use_lock : Bool
  freelist : Nat
  freepages : Nat
  pagerefcount : Nat → Nat
  mem : Mem

/-- How a call ends: it returns a value, or the kernel panics with a message.
Either way the allocator state at that point is recorded. -/
inductive Outcome (α : Type) where
  | ok (val : α) (s : Kmem) : Outcome α
  | panicked (msg : String) (s : Kmem) : Outcome α

/-- The assertion at the head of `kfree`: the address is rejected. -/
def kfreeRejects (L : Layout) (v : Nat) : Prop :=
  v % PGSIZE ≠ 0 ∨ v < L.kend ∨ V2P L v ≥ L.PHYSTOP

instance (L : Layout) (v : Nat) : Decidable (kfreeRejects L v) := by
  unfold kfreeRejects; infer_instance

/-- The function `kfree(v)`. -/
def kfree (L : Layout) (v : Nat) (s : Kmem) : Outcome Unit :=
  if kfreeRejects L v then .panicked "kfree" s
  else
    let s1 : Kmem :=
      if s.pagerefcount (pfn L v) > 0 then
        { s with pagerefcount :=
            Function.update s.pagerefcount (pfn L v) (dec32 (s.pagerefcount (pfn L v))) }
      else s
    let s2 : Kmem :=
      if s1.pagerefcount (pfn L v) = 0 then
        { s1 with
            mem := store32 (memset s1.mem v 1 PGSIZE) v s1.freelist
            freepages := inc32 s1.freepages
            freelist := v }
      else s1
    .ok () s2

/-- The function `kalloc()`.  Only the assignment `kmem.freelist = r->next` is
governed by `if(r)`; the two statements after it run on every call. -/
def kalloc (L : Layout) (s : Kmem) : Nat × Kmem :=
  let r := s.freelist
  let s1 : Kmem := if r ≠ 0 then { s with freelist := load32 s.mem r } else s
  let s2 : Kmem := { s1 with freepages := dec32 s1.freepages }
  let s3 : Kmem := { s2 with pagerefcount := Function.update s2.pagerefcount (pfn L r) 1 }
  (r, s3)

/-- The function `numFreePages()`. -/
def numFreePages (s : Kmem) : Nat × Kmem := (s.freepages, s)

/-- The range check shared by `decrefcount`, `increfcount` and `getrefcount`. -/
def refRejects (L : Layout) (v : Nat) : Prop :=
  v < V2P L L.kend ∨ v ≥ L.PHYSTOP

instance (L : Layout) (v : Nat) : Decidable (refRejects L v) := by
  unfold refRejects; infer_instance

/-- The function `decrefcount(v)`. -/
def decrefcount (L : Layout) (v : Nat) (s : Kmem) : Outcome Unit :=
  if refRejects L v then .panicked "decrementReferenceCount" s
  else
    let s1 : Kmem :=
      { s with pagerefcount :=
          Function.update s.pagerefcount (v >>> PGSHIFT) (dec32 (s.pagerefcount (v >>> PGSHIFT))) }
    .ok () s1

/-- The function `increfcount(v)`. -/
def increfcount (L : Layout) (v : Nat) (s : Kmem) : Outcome Unit :=
  if refRejects L v then .panicked "incrementReferenceCount" s
  else
    let s1 : Kmem :=
      { s with pagerefcount :=
          Function.update s.pagerefcount (v >>> PGSHIFT) (inc32 (s.pagerefcount (v >>> PGSHIFT))) }
    .ok () s1

/-- The function `getrefcount(v)`. -/
def getrefcount (L : Layout) (v : Nat) (s : Kmem) : Outcome Nat :=
  if refRejects L v then .panicked "getReferenceCount" s
  else .ok (s.pagerefcount (v >>> PGSHIFT)) s

/-- The loop of `freerange`, entered with the cursor at `p`.  Pointer
arithmetic is exact: `p + PGSIZE` is the mathematical sum, which is the 32-bit
sum of the source as long as the cursor stays two pages below `2 ^ 32`
(`freerangeLoop32` keeps the cursor modulo `2 ^ 32`; the two loops are compared
in `freerangeLoop32_agrees`).  A panic inside `kfree` ends the loop. -/
def freerangeLoop (L : Layout) (vend : Nat) (p : Nat) (s : Kmem) : Outcome Unit :=
  if p + PGSIZE ≤ vend then
    match kfree L p { s with pagerefcount := Function.update s.pagerefcount (pfn L p) 0 } with
    | .ok _ s1 => freerangeLoop L vend (p + PGSIZE) s1
    | .panicked msg s1 => .panicked msg s1
  else .ok () s
termination_by vend - p
decreasing_by
  simp only [PGSIZE] at *
  omega

/-- The function `freerange(vstart, vend)`. -/
def freerange (L : Layout) (vstart vend : Nat) (s : Kmem) : Outcome Unit :=
  freerangeLoop L vend (PGROUNDUP vstart) s

/-- The function `kinit1(vstart, vend)`; `initlock` only touches the lock. -/
def kinit1 (L : Layout) (vstart vend : Nat) (s : Kmem) : Outcome Unit :=
  freerange L vstart vend { s with use_lock := false, freepages := 0 }

/-- The function `kinit2(vstart, vend)`. -/
def kinit2 (L : Layout) (vstart vend : Nat) (s : Kmem) : Outcome Unit :=
  match freerange L vstart vend s with
  | .ok _ s1 => .ok () { s1 with use_lock := true }
  | .panicked msg s1 => .panicked msg s1

/-! ## The free list as a sequence of nodes -/

/-- Following `next` links from the pointer `p` visits exactly the nodes `l`,
in that order, and then arrives at the pointer `q`. -/
def listSeg (m : Mem) : Nat → List Nat → Nat → Prop
  | p, [], q => p = q
  | p, x :: xs, q => p = x ∧ x ≠ 0 ∧ listSeg m (load32 m x) xs q

/-- The free list headed by `p` consists of the nodes `l`: the walk from `p`
visits `l` and ends at the null pointer. -/
def FreeList (m : Mem) (p : Nat) (l : List Nat) : Prop := listSeg m p l 0

/-- The state at the end of a call. -/
def Outcome.state {α : Type} : Outcome α → Kmem
  | .ok _ s => s
  | .panicked _ s => s

/-- Whether the call returned (rather than panicked). -/
def Outcome.returned {α : Type} : Outcome α → Bool
  | .ok _ _ => true
  | .panicked _ _ => false

/-- Every field of the state holds a value of its C type: the head pointer,
the counter and the table entries are 32-bit, memory cells are bytes. -/
structure Kmem.wf (s : Kmem) : Prop where
  freelist_lt : s.freelist < 2 ^ 32
  freepages_lt : s.freepages < 2 ^ 32
  refcount_lt : ∀ i, s.pagerefcount i < 2 ^ 32
  byte_lt : ∀ a, s.mem a < 256

/-- Assumptions on the layout: `end` is a non-null address inside the direct
map, and the direct map `[KERNBASE, KERNBASE + PHYSTOP)` stops at least one
page short of the top of the 32-bit address space. -/
structure Layout.ok (L : Layout) : Prop where
  kend_pos : 0 < L.kend
  base_le : L.KERNBASE ≤ L.kend
  top_le : L.KERNBASE + L.PHYSTOP + PGSIZE ≤ 2 ^ 32

/-- The data-model invariants 1 to 4 of the allocator, for a state whose free
list is `l`: the counter equals the number of nodes; listed frames have
reference count 0 (so a frame with a positive count is not listed); listed
addresses are page-aligned, inside `[kend, PHYSTOP)` and pairwise distinct. -/
structure Inv (L : Layout) (s : Kmem) (l : List Nat) : Prop where
  list : FreeList s.mem s.freelist l
  count : s.freepages = l.length
  unref : ∀ v ∈ l, s.pagerefcount (pfn L v) = 0
  frames : ∀ v ∈ l, ¬ kfreeRejects L v
  nodup : l.Nodup

/-- An allocator with nothing in it: empty free list, zero counter, zero
table, zeroed memory. -/
def emptyPool : Kmem := ⟨false, 0, 0, fun _ => 0, fun _ => 0⟩

/-- A pool whose free list is the single frame at `0x80200000`. -/
def oneFree : Kmem := ⟨false, 0x80200000, 1, fun _ => 0, fun _ => 0⟩

/-- A pool whose free list is the frame at `0x80200000` followed by the frame
at `0x80201000`, both with reference count 0. -/
def twoFree : Kmem :=
  ⟨false, 0x80200000, 2, fun _ => 0, store32 (fun _ => 0) 0x80200000 0x80201000⟩

/-- Release the frames of a list one after the other with `kfree`. -/
def kfreeAll (L : Layout) : List Nat → Kmem → Outcome Unit
  | [], s => .ok () s
  | f :: fs, s =>
    match kfree L f s with
    | .ok _ s1 => kfreeAll L fs s1
    | .panicked msg s1 => .panicked msg s1

/-- Call `kalloc` `n` times in a row; the returned pointers in call order,
and the final state. -/
def kallocN (L : Layout) : Nat → Kmem → List Nat × Kmem
  | 0, s => ([], s)
  | n + 1, s => ((kalloc L s).1 :: (kallocN L n (kalloc L s).2).1, (kallocN L n (kalloc L s).2).2)

/-- One iteration of the body of the loop in `freerange` for each page of a
list: clear the table entry, then `kfree` the page. -/
def donate (L : Layout) : List Nat → Kmem → Outcome Unit
  | [], s => .ok () s
  | p :: ps, s =>
    match kfree L p { s with pagerefcount := Function.update s.pagerefcount (pfn L p) 0 } with
    | .ok _ s1 => donate L ps s1
    | .panicked msg s1 => .panicked msg s1

/-- The three frames of the ordering scenario, called A, B and C there. -/
def framesABC : List Nat := [0x80200000, 0x80201000, 0x80202000]

/-- The address `a` rounded up to a page boundary, as the specification words
it: the least multiple of 4096 that is at least `a`. -/
def roundUp (a : Nat) : Nat := (a + 4095) / 4096 * 4096

/-- The pages the specification says `free_range` over `[a, b)` releases, in
order: `round_up(a) + k * 4096` for `0 ≤ k < ⌊(b − round_up(a)) / 4096⌋`. -/
def specDonated (a b : Nat) : List Nat :=
  (List.range ((b - roundUp a) / 4096)).map (fun k => roundUp a + k * 4096)


/-- A pool with an empty free list in which every frame is held once and
every byte of memory is `0xAA`. -/
def heldAA : Kmem := ⟨true, 0, 0, fun _ => 1, fun _ => 0xAA⟩


/-- The pages the loop of `freerange(a, b)` visits, in order: from
`PGROUNDUP(a)` upwards in steps of a page while a whole page fits below `b`. -/
def rangePages (a b : Nat) : List Nat :=
  (List.range ((b - PGROUNDUP a) / 4096)).map (fun k => PGROUNDUP a + k * 4096)


/-- Invariant 1 of the data model: the counter equals the number of nodes of
the free list. -/
def Inv1 (s : Kmem) : Prop := ∃ l, FreeList s.mem s.freelist l ∧ s.freepages = l.length


/-- The number of entries of the table `pagerefcount[PHYSTOP >> PGSHIFT]`. -/
def tableSize (L : Layout) : Nat := L.PHYSTOP >>> PGSHIFT

/-- The table indices `kfree(v)` uses: none when the assertion fails, else
`V2P(v) >> PGSHIFT`. -/
def kfreeIndices (L : Layout) (v : Nat) : List Nat :=
  if kfreeRejects L v then [] else [pfn L v]

/-- The table index `kalloc()` uses: `V2P(r) >> PGSHIFT` for the head pointer
`r`, on every call. -/
def kallocIndices (L : Layout) (s : Kmem) : List Nat := [pfn L s.freelist]

/-- The table indices `decrefcount`, `increfcount` and `getrefcount` use: none
when the range check fails, else `v >> PGSHIFT`. -/
def refIndices (L : Layout) (v : Nat) : List Nat :=
  if refRejects L v then [] else [v >>> PGSHIFT]

/-- The table indices the loop of `freerange` uses on a list of pages: for each
page the index it clears, then those of `kfree`; the loop ends at the first
page `kfree` rejects. -/
def donateIndices (L : Layout) : List Nat → List Nat
  | [] => []
  | p :: ps => pfn L p :: (if kfreeRejects L p then [] else pfn L p :: donateIndices L ps)

/-- The table indices `freerange(a, b)` uses, taken over the pages of the loop
with exact arithmetic: these are the indices of the source's loop whenever the
range ends at least two pages below `2 ^ 32`, where its 32-bit cursor cannot
wrap. -/
def freerangeIndices (L : Layout) (a b : Nat) : List Nat :=
  donateIndices L (rangePages a b)


/-! ## Reachable states -/

/-- The frame at `v` is on the free list: a walk from the head pointer along
non-null `next` links visits it. -/
def OnFreeList (s : Kmem) (v : Nat) : Prop :=
  ∃ l q, listSeg s.mem s.freelist l q ∧ v ∈ l

/-- The allocator as the kernel image is loaded: `kmem` is zero-initialised,
memory holds anything. -/
def bootState (m : Mem) : Kmem := ⟨false, 0, 0, fun _ => 0, m⟩

/-- The states reachable from the zero-initialised allocator by `freerange`,
`kalloc` and `kfree` of an address currently held, paired with the list of
addresses currently held: those `kalloc` returned and no `kfree` has reclaimed
since.  The parameter `P` says which ranges `freerange` may be called on. -/
inductive Reach (L : Layout) (P : Kmem → List Nat → Nat → Nat → Prop) :
    Kmem → List Nat → Prop where
  | init (m : Mem) : Reach L P (bootState m) []
  | range {s s1 : Kmem} {held : List Nat} {a b : Nat} :
      Reach L P s held → a < 2 ^ 32 → b < 2 ^ 32 → P s held a b →
      freerange L a b s = .ok () s1 → Reach L P s1 held
  | alloc {s : Kmem} {held : List Nat} :
      Reach L P s held →
      Reach L P (kalloc L s).2
        (if (kalloc L s).1 = 0 then held else (kalloc L s).1 :: held)
  | free {s s1 : Kmem} {held : List Nat} {v : Nat} :
      Reach L P s held → v ∈ held → kfree L v s = .ok () s1 →
      Reach L P s1 (if s1.pagerefcount (pfn L v) = 0 then held.erase v else held)

/-- No restriction on the ranges given to `freerange`. -/
def AnyRange : Kmem → List Nat → Nat → Nat → Prop := fun _ _ _ _ => True

/-- The range lies inside the managed zone `[end, KERNBASE + PHYSTOP)`. -/
def ZoneRange (L : Layout) : Kmem → List Nat → Nat → Nat → Prop :=
  fun _ _ a b => L.kend ≤ a ∧ a ≤ b ∧ b ≤ L.KERNBASE + L.PHYSTOP

/-- The range contains no page that is on the free list or currently held. -/
def FreshRange : Kmem → List Nat → Nat → Nat → Prop :=
  fun s held a b => ∀ p ∈ rangePages a b, ¬ OnFreeList s p ∧ p ∉ held

/-- The range lies inside the managed zone and contains no page that is on the
free list or currently held. -/
def FreshZoneRange (L : Layout) : Kmem → List Nat → Nat → Nat → Prop :=
  fun s held a b => ZoneRange L s held a b ∧ FreshRange s held a b

/-- The invariant of the reachable states: `l` is the free list; listed and
held addresses are 32-bit addresses `kfree` accepts; listed frames have count
0; no address is held twice or both held and listed; the fields are 32-bit. -/
structure Good (L : Layout) (s : Kmem) (held l : List Nat) : Prop where
  list : FreeList s.mem s.freelist l
  frames : ∀ v ∈ l, v < 2 ^ 32 ∧ ¬ kfreeRejects L v
  unref : ∀ v ∈ l, s.pagerefcount (pfn L v) = 0
  hnodup : held.Nodup
  hframes : ∀ v ∈ held, v < 2 ^ 32 ∧ ¬ kfreeRejects L v
  apart : ∀ v ∈ held, v ∉ l
  count_lt : s.freepages < 2 ^ 32
  ref_lt : ∀ i, s.pagerefcount i < 2 ^ 32


/-- The state the body of the loop of `freerange` leaves when it is run on a
page `kfree` accepts: entry cleared, page filled, linked and made the head. -/
def pushPage (L : Layout) (p : Nat) (s : Kmem) : Kmem :=
  ⟨s.use_lock, p, inc32 s.freepages, Function.update s.pagerefcount (pfn L p) 0,
    store32 (memset s.mem p 1 PGSIZE) p s.freelist⟩

/-- The zero-initialised allocator after `freerange` over the one page at
`0x80200000` (zeroed memory). -/
def donatedOnce : Kmem := pushPage xv6 0x80200000 (bootState (fun _ => 0))


/-- The loop of `freerange` with the cursor kept as the 32-bit pointer it is in
the source: `p + PGSIZE` is taken modulo `2 ^ 32`, in the guard and in the step.
`fuel` bounds the number of guard tests that are followed; the result is `none`
when it is used up. -/
def freerangeLoop32 (L : Layout) (vend : Nat) : Nat → Nat → Kmem → Option (Outcome Unit)
  | 0, _, _ => none
  | fuel + 1, p, s =>
    if (p + PGSIZE) % 2 ^ 32 ≤ vend then
      match kfree L p { s with pagerefcount := Function.update s.pagerefcount (pfn L p) 0 } with
      | .ok _ s1 => freerangeLoop32 L vend fuel ((p + PGSIZE) % 2 ^ 32) s1
      | .panicked msg s1 => some (.panicked msg s1)
    else some (.ok () s)

/-- A layout whose direct map ends exactly one page below `2 ^ 32`
(`KERNBASE + PHYSTOP = 0xFFFFF000`). -/
def topLayout : Layout := ⟨0xF1FFF000, 0xE000000, 0xF2000000⟩


/-- The xv6 layout with `PHYSTOP` moved up by half a page, to `0xE000800`, which
is not a multiple of the page size. -/
def oddTop : Layout := ⟨0x80000000, 0xE000800, 0x80116000⟩

/-! ## Basic facts -/

theorem dec32_of_pos {x : Nat} (h0 : 0 < x) (h : x < 2 ^ 32) : dec32 x = x - 1 := by
  unfold dec32; omega

theorem inc32_dec32 {x : Nat} (h : x < 2 ^ 32) : inc32 (dec32 x) = x := by
  unfold inc32 dec32; omega

theorem dec32_inc32 {x : Nat} (h : x < 2 ^ 32) : dec32 (inc32 x) = x := by
  unfold inc32 dec32; omega

theorem load32_store32 (m : Mem) (a w : Nat) (h : w < 2 ^ 32) :
    load32 (store32 m a w) a = w := by
  simp only [load32, store32]
  simp
  omega

/-- A word whose four bytes lie outside a page is not changed when the page is
filled and its first word overwritten. -/
theorem load32_push (m : Mem) (v w x : Nat) (h : x + 4 ≤ v ∨ v + PGSIZE ≤ x) :
    load32 (store32 (memset m v 1 PGSIZE) v w) x = load32 m x := by
  simp only [PGSIZE] at h
  have e : ∀ y, (y + 1 ≤ v ∨ v + 4096 ≤ y) → store32 (memset m v 1 PGSIZE) v w y = m y := by
    intro y hy
    simp only [store32, memset, PGSIZE]
    have h1 : y ≠ v := by omega
    have h2 : y ≠ v + 1 := by omega
    have h3 : y ≠ v + 2 := by omega
    have h4 : y ≠ v + 3 := by omega
    have h5 : ¬ (v ≤ y ∧ y < v + 4096) := by omega
    simp [h1, h2, h3, h4, h5]
  simp only [load32]
  rw [e x (by omega), e (x + 1) (by omega), e (x + 2) (by omega), e (x + 3) (by omega)]

theorem listSeg_congr {m m1 : Mem} :
    ∀ (l : List Nat) (p q : Nat), (∀ x ∈ l, load32 m1 x = load32 m x) →
      listSeg m p l q → listSeg m1 p l q
  | [], _, _, _, h => h
  | x :: xs, p, q, hl, h => by
    obtain ⟨h1, h2, h3⟩ := h
    refine ⟨h1, h2, ?_⟩
    rw [hl x (List.mem_cons_self _ _)]
    exact listSeg_congr xs _ q (fun y hy => hl y (List.mem_cons_of_mem _ hy)) h3

theorem load32_lt (m : Mem) (a : Nat) (h : ∀ x, m x < 256) : load32 m a < 2 ^ 32 := by
  have h0 := h a
  have h1 := h (a + 1)
  have h2 := h (a + 2)
  have h3 := h (a + 3)
  simp only [load32]
  omega

theorem listSeg_append {m : Mem} :
    ∀ (l1 l2 : List Nat) (p q r : Nat),
      listSeg m p l1 q → listSeg m q l2 r → listSeg m p (l1 ++ l2) r
  | [], _, _, _, _, h1, h2 => by
    simp only [listSeg] at h1
    rw [List.nil_append, h1]; exact h2
  | x :: xs, l2, p, q, r, h1, h2 => by
    obtain ⟨ha, hb, hc⟩ := h1
    exact ⟨ha, hb, listSeg_append xs l2 _ q r hc h2⟩

/-! ## `kalloc` -/

theorem kalloc_fst (L : Layout) (s : Kmem) : (kalloc L s).1 = s.freelist := rfl

/-- Whether or not the pool is empty, `kalloc` writes 1 into the table at the
index computed from the head pointer. -/
theorem kalloc_pagerefcount (L : Layout) (s : Kmem) :
    (kalloc L s).2.pagerefcount = Function.update s.pagerefcount (pfn L s.freelist) 1 := by
  by_cases h : s.freelist = 0 <;> simp [kalloc, h]

/-- The state `kalloc` produces when the head pointer is not null. -/
theorem kalloc_pop {L : Layout} (s : Kmem) (h : s.freelist ≠ 0) :
    (kalloc L s).2 =
      ⟨s.use_lock, load32 s.mem s.freelist, dec32 s.freepages,
        Function.update s.pagerefcount (pfn L s.freelist) 1, s.mem⟩ := by
  simp [kalloc, h]

/-- C1 (evaluation at the failing input): on the empty pool with a zero
counter `kalloc` returns null, yet the counter wraps to `2 ^ 32 - 1` and the
table word at `V2P(0) >> PGSHIFT`, which held 0, is set to 1. -/
theorem kalloc_empty_pool_mutates :
    (kalloc xv6 emptyPool).1 = 0 ∧
    emptyPool.freepages = 0 ∧ (kalloc xv6 emptyPool).2.freepages = 4294967295 ∧
    emptyPool.pagerefcount (pfn xv6 0) = 0 ∧
    (kalloc xv6 emptyPool).2.pagerefcount (pfn xv6 0) = 1 := by
  simp [kalloc, emptyPool, dec32]

/-- C2: when the free list is `head :: rest`, `kalloc` returns `head`, the free
list becomes `rest`, and the counter is decremented by one (as a `uint`; it
is exactly one less whenever it was positive). -/
theorem kalloc_pops_head (L : Layout) (s : Kmem) (head : Nat) (rest : List Nat)
    (h : FreeList s.mem s.freelist (head :: rest)) :
    (kalloc L s).1 = head ∧
    FreeList (kalloc L s).2.mem (kalloc L s).2.freelist rest ∧
    (kalloc L s).2.freepages = dec32 s.freepages ∧
    (0 < s.freepages → s.freepages < 2 ^ 32 → (kalloc L s).2.freepages + 1 = s.freepages) := by
  obtain ⟨h1, h2, h3⟩ := h
  have hne : s.freelist ≠ 0 := by rw [h1]; exact h2
  refine ⟨?_, ?_, ?_, ?_⟩
  · simp [kalloc, h1]
  · simp only [kalloc, hne, ne_eq, not_false_eq_true, if_true, FreeList]
    rw [h1]; exact h3
  · simp only [kalloc, hne, ne_eq, not_false_eq_true, if_true]
  · intro h0 h32
    simp only [kalloc, hne, ne_eq, not_false_eq_true, if_true]
    rw [dec32_of_pos h0 h32]; omega

/-- C2 (witness): the one-node list at `0x80200000` in zeroed memory. -/
theorem kalloc_pops_head_witness :
    FreeList oneFree.mem oneFree.freelist [0x80200000] ∧
    (kalloc xv6 oneFree).1 = 0x80200000 ∧
    FreeList (kalloc xv6 oneFree).2.mem (kalloc xv6 oneFree).2.freelist [] :=
  have h : FreeList oneFree.mem oneFree.freelist [0x80200000] := by
    simp [FreeList, listSeg, load32, oneFree]
  ⟨h, (kalloc_pops_head xv6 oneFree 0x80200000 [] h).1,
    (kalloc_pops_head xv6 oneFree 0x80200000 [] h).2.1⟩

/-- C3: when `kalloc` returns a non-null address `v` whose physical address
lies in the range `getrefcount` accepts, `getrefcount(V2P(v))` returns 1
whatever the entry held before; the entry of `v` is 1 and every other entry of
the table is as before. -/
theorem kalloc_sets_refcount (L : Layout) (s : Kmem)
    (hv : (kalloc L s).1 ≠ 0)
    (hr : V2P L L.kend ≤ V2P L (kalloc L s).1 ∧ V2P L (kalloc L s).1 < L.PHYSTOP) :
    getrefcount L (V2P L (kalloc L s).1) (kalloc L s).2 = .ok 1 (kalloc L s).2 ∧
    (kalloc L s).2.pagerefcount (pfn L (kalloc L s).1) = 1 ∧
    ∀ i, i ≠ pfn L (kalloc L s).1 →
      (kalloc L s).2.pagerefcount i = s.pagerefcount i := by
  have _ := hv
  have hnr : ¬ refRejects L (V2P L (kalloc L s).1) := by
    unfold refRejects; omega
  have h1 : (kalloc L s).2.pagerefcount (pfn L (kalloc L s).1) = 1 := by
    rw [kalloc_pagerefcount, kalloc_fst]; exact Function.update_same _ _ _
  refine ⟨?_, h1, ?_⟩
  · unfold getrefcount
    rw [if_neg hnr]
    have : (kalloc L s).2.pagerefcount (V2P L (kalloc L s).1 >>> PGSHIFT) = 1 := h1
    rw [this]
  · intro i hi
    rw [kalloc_pagerefcount]
    exact Function.update_noteq hi _ _

/-- C3 (witness): allocating the single free frame at `0x80200000`. -/
theorem kalloc_sets_refcount_witness :
    (kalloc xv6 oneFree).1 ≠ 0 ∧
    getrefcount xv6 (V2P xv6 (kalloc xv6 oneFree).1) (kalloc xv6 oneFree).2
      = .ok 1 (kalloc xv6 oneFree).2 :=
  have h : (kalloc xv6 oneFree).1 ≠ 0 := by simp [kalloc, oneFree]
  ⟨h, (kalloc_sets_refcount xv6 oneFree h (by simp [kalloc, oneFree, V2P, xv6])).1⟩

/-! ## `kfree` -/

theorem kfree_rejected {L : Layout} {v : Nat} (s : Kmem) (h : kfreeRejects L v) :
    kfree L v s = .panicked "kfree" s := by
  unfold kfree; rw [if_pos h]

/-- The state `kfree` produces when it drops a reference and the frame stays
in use. -/
theorem kfree_keep {L : Layout} {v : Nat} (s : Kmem) (hv : ¬ kfreeRejects L v)
    (h2 : 2 ≤ s.pagerefcount (pfn L v)) (h32 : s.pagerefcount (pfn L v) < 2 ^ 32) :
    kfree L v s = .ok ()
      ⟨s.use_lock, s.freelist, s.freepages,
        Function.update s.pagerefcount (pfn L v) (s.pagerefcount (pfn L v) - 1), s.mem⟩ := by
  have hpos : s.pagerefcount (pfn L v) > 0 := by omega
  have hd : dec32 (s.pagerefcount (pfn L v)) = s.pagerefcount (pfn L v) - 1 :=
    dec32_of_pos hpos h32
  have hne : ¬ (s.pagerefcount (pfn L v) - 1 = 0) := by omega
  unfold kfree
  rw [if_neg hv]
  simp only [hpos, if_true, hd, Function.update_same, hne, if_false]

/-- The state `kfree` produces when it reclaims the frame. -/
theorem kfree_reclaim {L : Layout} {v : Nat} (s : Kmem) (hv : ¬ kfreeRejects L v)
    (hc : s.pagerefcount (pfn L v) ≤ 1) :
    kfree L v s = .ok ()
      ⟨s.use_lock, v, inc32 s.freepages, Function.update s.pagerefcount (pfn L v) 0,
        store32 (memset s.mem v 1 PGSIZE) v s.freelist⟩ := by
  unfold kfree
  rw [if_neg hv]
  rcases Nat.eq_zero_or_pos (s.pagerefcount (pfn L v)) with h0 | hpos
  · have hn : ¬ (s.pagerefcount (pfn L v) > 0) := by omega
    have hu : Function.update s.pagerefcount (pfn L v) 0 = s.pagerefcount := by
      rw [← h0]; exact Function.update_eq_self _ _
    simp [h0, hu]
  · have h1 : s.pagerefcount (pfn L v) = 1 := by omega
    have hd : dec32 1 = 0 := by decide
    simp [h1, hd]

/-- C4: `kfree` of an accepted address whose reference count is at least 2
makes the count exactly one less and changes nothing else: the head pointer,
the counter, the whole memory (hence the page, which is not poisoned, and the
free list) and every other table entry are as before. -/
theorem kfree_shared_drops_one (L : Layout) (s : Kmem) (v : Nat)
    (hv : ¬ kfreeRejects L v) (h2 : 2 ≤ s.pagerefcount (pfn L v))
    (h32 : s.pagerefcount (pfn L v) < 2 ^ 32) :
    ∃ s1, kfree L v s = .ok () s1 ∧
      s1.pagerefcount (pfn L v) + 1 = s.pagerefcount (pfn L v) ∧
      s1.freelist = s.freelist ∧ s1.freepages = s.freepages ∧ s1.mem = s.mem ∧
      s1.use_lock = s.use_lock ∧
      (∀ l, FreeList s.mem s.freelist l → FreeList s1.mem s1.freelist l) ∧
      ∀ i, i ≠ pfn L v → s1.pagerefcount i = s.pagerefcount i := by
  refine ⟨_, kfree_keep s hv h2 h32, ?_, rfl, rfl, rfl, rfl, fun l h => h, ?_⟩
  · simp only [Function.update_same]; omega
  · intro i hi
    simp only [Function.update_noteq hi]

/-- C4 (witness): the frame at `0x80200000` held by three owners. -/
theorem kfree_shared_drops_one_witness :
    ∃ s1, kfree xv6 0x80200000 ⟨true, 0, 0, fun _ => 3, fun _ => 0⟩ = .ok () s1 ∧
      s1.pagerefcount (pfn xv6 0x80200000) + 1 = 3 ∧ s1.freepages = 0 :=
  have h := kfree_shared_drops_one xv6 ⟨true, 0, 0, fun _ => 3, fun _ => 0⟩ 0x80200000
    (by decide) (by decide) (by decide)
  h.imp fun _ hs => ⟨hs.1, hs.2.1, hs.2.2.2.1⟩

/-- C5 (counterexample): the frame at `0x80200000` has reference count 0 and
heads the free list `[0x80200000, 0x80201000]`.  After `kfree` of it the free
list is not `[0x80200000, 0x80200000, 0x80201000]`: the node now links to
itself, so the walk from the head never leaves it and the frame at
`0x80201000` is no longer reached. -/
theorem kfree_listed_frame_makes_cycle :
    ¬ kfreeRejects xv6 0x80200000 ∧
    twoFree.pagerefcount (pfn xv6 0x80200000) = 0 ∧
    FreeList twoFree.mem twoFree.freelist [0x80200000, 0x80201000] ∧
    (kfree xv6 0x80200000 twoFree).returned = true ∧
    (kfree xv6 0x80200000 twoFree).state.freelist = 0x80200000 ∧
    load32 (kfree xv6 0x80200000 twoFree).state.mem 0x80200000 = 0x80200000 ∧
    ¬ FreeList (kfree xv6 0x80200000 twoFree).state.mem
        (kfree xv6 0x80200000 twoFree).state.freelist
        [0x80200000, 0x80200000, 0x80201000] := by
  have hv : ¬ kfreeRejects xv6 0x80200000 := by decide
  have hk := kfree_reclaim twoFree hv (by decide)
  rw [hk]
  refine ⟨hv, rfl, ?_, rfl, rfl, ?_, ?_⟩
  · simp [FreeList, listSeg, twoFree, load32, store32]
  · simp [Outcome.state, twoFree, load32_store32]
  · simp [FreeList, listSeg, Outcome.state, twoFree, load32_store32]

/-- C5 (amended): `kfree` of an accepted address whose reference count is 1 or
0 leaves the count at 0, increments the counter by one (as a `uint`), makes
the frame the head of the free list and stores the previous head in its `next`
link; every other table entry is unchanged.  When the frame is not already on
the free list, whose nodes are page-aligned, the free list afterwards is the
frame followed by the previous free list. -/
theorem kfree_reclaims_last_drop (L : Layout) (s : Kmem) (v : Nat)
    (hk : 0 < L.kend) (hp : s.freelist < 2 ^ 32)
    (hv : ¬ kfreeRejects L v) (hc : s.pagerefcount (pfn L v) ≤ 1) :
    ∃ s1, kfree L v s = .ok () s1 ∧
      s1.pagerefcount (pfn L v) = 0 ∧
      s1.freepages = inc32 s.freepages ∧
      (s.freepages + 1 < 2 ^ 32 → s1.freepages = s.freepages + 1) ∧
      s1.freelist = v ∧ load32 s1.mem v = s.freelist ∧
      (∀ l, FreeList s.mem s.freelist l → (∀ x ∈ l, x ≠ v ∧ x % PGSIZE = 0) →
        FreeList s1.mem s1.freelist (v :: l)) ∧
      ∀ i, i ≠ pfn L v → s1.pagerefcount i = s.pagerefcount i := by
  have hv2 : v % 4096 = 0 ∧ L.kend ≤ v := by
    simp only [kfreeRejects, PGSIZE] at hv; omega
  refine ⟨_, kfree_reclaim s hv hc, ?_, rfl, ?_, rfl, load32_store32 _ _ _ hp, ?_, ?_⟩
  · simp only [Function.update_same]
  · intro h; simp only [inc32]; omega
  · intro l hl hx
    refine ⟨rfl, by omega, ?_⟩
    simp only [load32_store32 _ _ _ hp]
    refine listSeg_congr l _ _ (fun x hxl => load32_push _ _ _ _ ?_) hl
    have := hx x hxl
    simp only [PGSIZE] at this ⊢
    omega
  · intro i hi
    simp only [Function.update_noteq hi]

/-- C5 (witness): the frame at `0x80202000`, whose count is 0 and which is not
listed, is released into the pool whose free list is
`[0x80200000, 0x80201000]`. -/
theorem kfree_reclaims_last_drop_witness :
    ∃ s1, kfree xv6 0x80202000 twoFree = .ok () s1 ∧ s1.freepages = 3 ∧
      FreeList s1.mem s1.freelist [0x80202000, 0x80200000, 0x80201000] :=
  have h := kfree_reclaims_last_drop xv6 twoFree 0x80202000
    (by decide) (by decide) (by decide) (by decide)
  h.imp fun _ hs => ⟨hs.1, hs.2.2.1,
    hs.2.2.2.2.2.2.1 [0x80200000, 0x80201000]
      (by simp [FreeList, listSeg, twoFree, load32, store32])
      (by simp [PGSIZE])⟩

/-- C6: `kfree(v)` panics exactly when `v` is not a multiple of 4096, or
`v < end`, or `V2P(v) >= PHYSTOP`, and then the state at the panic is the state
it was called in.  A page-aligned `end` below `PHYSTOP` is accepted as `v`, and
`end - 1` panics. -/
theorem kfree_panics_iff (L : Layout) (s : Kmem) (v : Nat) :
    ((kfree L v s).returned = false ↔
      (v % 4096 ≠ 0 ∨ v < L.kend ∨ V2P L v ≥ L.PHYSTOP)) ∧
    ((kfree L v s).returned = false → kfree L v s = .panicked "kfree" s) ∧
    (L.kend % 4096 = 0 → V2P L L.kend < L.PHYSTOP →
      (kfree L L.kend s).returned = true) ∧
    (0 < L.kend → kfree L (L.kend - 1) s = .panicked "kfree" s) := by
  have key : ∀ w, (kfree L w s).returned = false ↔ kfreeRejects L w := by
    intro w
    by_cases h : kfreeRejects L w
    · simp [kfree_rejected s h, Outcome.returned, h]
    · unfold kfree; rw [if_neg h]; simp [Outcome.returned, h]
  refine ⟨?_, ?_, ?_, ?_⟩
  · rw [key]; simp only [kfreeRejects, PGSIZE]
  · intro h; exact kfree_rejected s ((key v).1 h)
  · intro h1 h2
    have hn : ¬ kfreeRejects L L.kend := by
      simp only [kfreeRejects, PGSIZE]; omega
    cases hr : (kfree L L.kend s).returned
    · exact absurd ((key _).1 hr) hn
    · rfl
  · intro h
    apply kfree_rejected
    simp only [kfreeRejects]; omega

/-- C6 (witness): in the xv6 layout `end = 0x80116000` is accepted and
`end - 1` panics. -/
theorem kfree_panics_iff_witness :
    (kfree xv6 xv6.kend emptyPool).returned = true ∧
    kfree xv6 (xv6.kend - 1) emptyPool = .panicked "kfree" emptyPool :=
  ⟨(kfree_panics_iff xv6 emptyPool 0).2.2.1 (by decide) (by decide),
    (kfree_panics_iff xv6 emptyPool 0).2.2.2 (by decide)⟩

/-! ## Round trips -/

/-- C7: in a state that satisfies the data-model invariants and has a non-empty
free list, `kalloc` followed by `kfree` of the returned address returns, and
leaves the counter, the head pointer, the free list and every reference count
as they were before the two calls. -/
theorem kalloc_kfree_round_trip (L : Layout) (s : Kmem) (l : List Nat)
    (hw : s.wf) (hinv : Inv L s l) (hne : l ≠ []) :
    ∃ s2, kfree L (kalloc L s).1 (kalloc L s).2 = .ok () s2 ∧
      (kalloc L s).1 ≠ 0 ∧
      s2.freepages = s.freepages ∧ s2.freelist = s.freelist ∧
      FreeList s2.mem s2.freelist l ∧
      (∀ i, s2.pagerefcount i = s.pagerefcount i) ∧
      Inv L s2 l := by
  obtain ⟨hlist, hcount, hunref, hframes, hnodup⟩ := hinv
  cases l with
  | nil => exact absurd rfl hne
  | cons head rest =>
    obtain ⟨h1, h2, h3⟩ := hlist
    have hnz : s.freelist ≠ 0 := by rw [h1]; exact h2
    have hacc : ¬ kfreeRejects L head := hframes head (List.mem_cons_self _ _)
    have hal : head % 4096 = 0 := by
      simp only [kfreeRejects, PGSIZE] at hacc; omega
    have hnext : load32 s.mem head < 2 ^ 32 := load32_lt _ _ hw.byte_lt
    have hfp : inc32 (dec32 s.freepages) = s.freepages := inc32_dec32 hw.freepages_lt
    have hrc : Function.update (Function.update s.pagerefcount (pfn L head) 1) (pfn L head) 0
        = s.pagerefcount := by
      rw [Function.update_idem, ← hunref head (List.mem_cons_self _ _)]
      exact Function.update_eq_self _ _
    have hfl : FreeList (store32 (memset s.mem head 1 PGSIZE) head (load32 s.mem head))
        head (head :: rest) := by
      refine ⟨rfl, h2, ?_⟩
      rw [load32_store32 _ _ _ hnext]
      refine listSeg_congr rest _ _ (fun x hx => load32_push _ _ _ _ ?_) h3
      have hxa : ¬ kfreeRejects L x := hframes x (List.mem_cons_of_mem _ hx)
      have hxne : x ≠ head := by
        rintro rfl
        exact (List.nodup_cons.1 hnodup).1 hx
      simp only [kfreeRejects, PGSIZE] at hxa ⊢
      omega
    have hk : kfree L (kalloc L s).1 (kalloc L s).2 = .ok ()
        ⟨s.use_lock, head, s.freepages, s.pagerefcount,
          store32 (memset s.mem head 1 PGSIZE) head (load32 s.mem head)⟩ := by
      rw [kalloc_fst, kalloc_pop s hnz, h1, kfree_reclaim _ hacc (by simp)]
      simp only [hfp, hrc]
    refine ⟨_, hk, by rw [kalloc_fst]; exact hnz, rfl, h1.symm, hfl, fun _ => rfl, ?_⟩
    exact ⟨hfl, hcount, hunref, hframes, hnodup⟩

/-- C7 (witness): the pool whose free list is `[0x80200000, 0x80201000]`. -/
theorem kalloc_kfree_round_trip_witness :
    ∃ s2, kfree xv6 (kalloc xv6 twoFree).1 (kalloc xv6 twoFree).2 = .ok () s2 ∧
      s2.freepages = twoFree.freepages ∧
      ∀ i, s2.pagerefcount i = twoFree.pagerefcount i :=
  have hb : ∀ a, twoFree.mem a < 256 := by
    intro a
    simp only [twoFree, store32]
    split_ifs <;> omega
  have h := kalloc_kfree_round_trip xv6 twoFree [0x80200000, 0x80201000]
    ⟨by decide, by decide, fun _ => by simp [twoFree], hb⟩
    ⟨by simp [FreeList, listSeg, twoFree, load32, store32], rfl, fun _ _ => rfl,
      by simp [kfreeRejects, PGSIZE, V2P, xv6], by decide⟩
    (by simp)
  h.imp fun _ hs => ⟨hs.1, hs.2.2.1, hs.2.2.2.2.2.1⟩

/-- C8: for a physical address `p` with `V2P(end) <= p < PHYSTOP` and any
32-bit count in its table entry (0 and `2 ^ 32 - 1` included), `increfcount(p)`
returns and `decrefcount(p)` then returns the state the pair started from. -/
theorem incref_decref_is_noop (L : Layout) (s : Kmem) (p : Nat)
    (h1 : V2P L L.kend ≤ p) (h2 : p < L.PHYSTOP)
    (h32 : s.pagerefcount (p >>> PGSHIFT) < 2 ^ 32) :
    ∃ s1, increfcount L p s = .ok () s1 ∧ decrefcount L p s1 = .ok () s := by
  have hr : ¬ refRejects L p := by unfold refRejects; omega
  refine ⟨_, by unfold increfcount; rw [if_neg hr], ?_⟩
  unfold decrefcount
  rw [if_neg hr]
  simp only [Function.update_same, Function.update_idem, dec32_inc32 h32,
    Function.update_eq_self]

/-- C8 (witness): a count of `2 ^ 32 - 1` at the first managed frame wraps to 0
and comes back. -/
theorem incref_decref_is_noop_witness :
    ∃ s1, increfcount xv6 0x116000 ⟨true, 0, 0, fun _ => 4294967295, fun _ => 0⟩
        = .ok () s1 ∧
      decrefcount xv6 0x116000 s1
        = .ok () ⟨true, 0, 0, fun _ => 4294967295, fun _ => 0⟩ :=
  incref_decref_is_noop xv6 ⟨true, 0, 0, fun _ => 4294967295, fun _ => 0⟩ 0x116000
    (by decide) (by decide) (by decide)

/-! ## Order of reuse -/

/-- Link words that lie outside the page at `v` survive `kfree(v)`. -/
theorem kfree_reclaim_frame {L : Layout} {v : Nat} (s s1 : Kmem) (hv : ¬ kfreeRejects L v)
    (hc : s.pagerefcount (pfn L v) ≤ 1) (hk : kfree L v s = .ok () s1) (x : Nat)
    (hx : x + 4 ≤ v ∨ v + PGSIZE ≤ x) : load32 s1.mem x = load32 s.mem x := by
  rw [kfree_reclaim s hv hc] at hk
  injection hk with _ hs
  rw [← hs]
  exact load32_push _ _ _ _ hx

/-- Two distinct page-aligned addresses: the link word of one lies outside the
page of the other. -/
theorem apart_of_aligned {x v : Nat} (hx : x % PGSIZE = 0) (hv : v % PGSIZE = 0)
    (hne : x ≠ v) : x + 4 ≤ v ∨ v + PGSIZE ≤ x := by
  simp only [PGSIZE] at *
  omega

/-- Releasing distinct reclaimable frames pushes them one by one: afterwards
the walk from the head visits them in reverse order of release and arrives at
the previous head; link words outside the released pages are untouched. -/
theorem kfreeAll_pushes (L : Layout) (hk : 0 < L.kend) :
    ∀ (fs : List Nat) (s : Kmem), s.freelist < 2 ^ 32 → fs.Nodup →
      (∀ f ∈ fs, f < 2 ^ 32 ∧ ¬ kfreeRejects L f ∧ s.pagerefcount (pfn L f) ≤ 1) →
      ∃ s1, kfreeAll L fs s = .ok () s1 ∧
        listSeg s1.mem s1.freelist fs.reverse s.freelist ∧
        ∀ x, (∀ f ∈ fs, x + 4 ≤ f ∨ f + PGSIZE ≤ x) → load32 s1.mem x = load32 s.mem x
  | [], s, _, _, _ => ⟨s, rfl, rfl, fun _ _ => rfl⟩
  | f :: fs, s, hs, hd, hf => by
    obtain ⟨hf32, hfv, hfc⟩ := hf f (List.mem_cons_self _ _)
    have hfa : f % PGSIZE = 0 ∧ f ≠ 0 := by
      simp only [kfreeRejects, PGSIZE] at hfv ⊢; omega
    have hstep := kfree_reclaim s hfv hfc
    obtain ⟨hnot, hd2⟩ := List.nodup_cons.1 hd
    obtain ⟨s1, hall, hseg, hfr⟩ := kfreeAll_pushes L hk fs
      ⟨s.use_lock, f, inc32 s.freepages, Function.update s.pagerefcount (pfn L f) 0,
        store32 (memset s.mem f 1 PGSIZE) f s.freelist⟩ hf32 hd2
      (fun g hg => by
        obtain ⟨hg32, hgv, hgc⟩ := hf g (List.mem_cons_of_mem _ hg)
        refine ⟨hg32, hgv, ?_⟩
        show Function.update s.pagerefcount (pfn L f) 0 (pfn L g) ≤ 1
        by_cases he : pfn L g = pfn L f
        · rw [he, Function.update_same]; exact Nat.zero_le _
        · rw [Function.update_noteq he]; exact hgc)
    have hlink : load32 s1.mem f = s.freelist := by
      rw [hfr f (fun g hg => ?_)]
      · exact load32_store32 _ _ _ hs
      · have hgv := (hf g (List.mem_cons_of_mem _ hg)).2.1
        have hga : g % PGSIZE = 0 := by
          simp only [kfreeRejects, PGSIZE] at hgv ⊢; omega
        have hne : f ≠ g := by rintro rfl; exact hnot hg
        exact apart_of_aligned hfa.1 hga hne
    refine ⟨s1, ?_, ?_, ?_⟩
    · simp only [kfreeAll, hstep]; exact hall
    · rw [List.reverse_cons]
      exact listSeg_append _ _ _ _ _ hseg ⟨rfl, hfa.2, by rw [hlink]; rfl⟩
    · intro x hx
      rw [hfr x (fun g hg => hx g (List.mem_cons_of_mem _ hg))]
      exact load32_push _ _ _ _ (hx f (List.mem_cons_self _ _))

/-- When the walk from the head visits the nodes `l`, that many calls of `kalloc`
return exactly `l`, in order. -/
theorem kallocN_pops (L : Layout) :
    ∀ (l : List Nat) (s : Kmem) (q : Nat), listSeg s.mem s.freelist l q →
      (kallocN L l.length s).1 = l
  | [], _, _, _ => rfl
  | x :: xs, s, q, h => by
    obtain ⟨h1, h2, h3⟩ := h
    have hnz : s.freelist ≠ 0 := by rw [h1]; exact h2
    have ih := kallocN_pops L xs (kalloc L s).2 q (by rw [kalloc_pop s hnz, h1]; exact h3)
    simp only [List.length_cons, kallocN, kalloc_fst, ih, h1]

/-- C9: starting from any state, releasing distinct accepted frames
`f1, ..., fn`, each with reference count at most 1, by `kfree` in that order
succeeds, and the next `n` calls of `kalloc` return `fn, ..., f1`. -/
theorem lifo_order (L : Layout) (s : Kmem) (fs : List Nat)
    (hk : 0 < L.kend) (hs : s.freelist < 2 ^ 32) (hd : fs.Nodup)
    (hf : ∀ f ∈ fs, f < 2 ^ 32 ∧ ¬ kfreeRejects L f ∧ s.pagerefcount (pfn L f) ≤ 1) :
    ∃ s1, kfreeAll L fs s = .ok () s1 ∧
      (kallocN L fs.length s1).1 = fs.reverse := by
  obtain ⟨s1, h1, h2, _⟩ := kfreeAll_pushes L hk fs s hs hd hf
  refine ⟨s1, h1, ?_⟩
  have := kallocN_pops L fs.reverse s1 s.freelist h2
  rwa [List.length_reverse] at this

/-- C9 (witness): donate A, B, C to the empty pool; three allocations return
C, B, A. -/
theorem lifo_order_witness :
    ∃ s1, kfreeAll xv6 framesABC emptyPool = .ok () s1 ∧
      (kallocN xv6 3 s1).1 = [0x80202000, 0x80201000, 0x80200000] :=
  lifo_order xv6 emptyPool framesABC (by decide) (by decide) (by decide)
    (by simp [framesABC, kfreeRejects, PGSIZE, V2P, xv6, emptyPool])

/-! ## `freerange` -/

/-- The loop of `freerange` runs its body on the pages `p, p + 4096, ...` that
fit below `vend`, in ascending order. -/
theorem freerangeLoop_eq_donate (L : Layout) (vend : Nat) :
    ∀ (n p : Nat) (s : Kmem), n = (vend - p) / 4096 →
      freerangeLoop L vend p s
        = donate L ((List.range n).map (fun k => p + k * 4096)) s
  | 0, p, s, hn => by
    have hlt : ¬ (p + PGSIZE ≤ vend) := by
      simp only [PGSIZE]; omega
    rw [freerangeLoop, if_neg hlt]
    rfl
  | n + 1, p, s, hn => by
    have hle : p + PGSIZE ≤ vend := by
      simp only [PGSIZE]; omega
    have ih : ∀ s1, freerangeLoop L vend (p + PGSIZE) s1
        = donate L ((List.range n).map (fun k => p + PGSIZE + k * 4096)) s1 :=
      fun s1 => freerangeLoop_eq_donate L vend n (p + PGSIZE) s1 (by
        simp only [PGSIZE]; omega)
    have hl : (List.range (n + 1)).map (fun k => p + k * 4096)
        = p :: (List.range n).map (fun k => p + PGSIZE + k * 4096) := by
      rw [List.range_succ_eq_map, List.map_cons, List.map_map]
      refine congrArg₂ _ (by simp) (List.map_congr_left (fun k _ => ?_))
      simp only [Function.comp, PGSIZE]
      omega
    rw [freerangeLoop, if_pos hle, hl]
    simp only [donate]
    cases kfree L p
      ⟨s.use_lock, s.freelist, s.freepages, Function.update s.pagerefcount (pfn L p) 0,
        s.mem⟩ with
    | ok _ s1 => exact ih s1
    | panicked _ _ => rfl

/-- The body of the loop of `freerange` always reclaims an accepted page. -/
theorem donate_step {L : Layout} {p : Nat} (s : Kmem) (hv : ¬ kfreeRejects L p) :
    kfree L p
        ⟨s.use_lock, s.freelist, s.freepages, Function.update s.pagerefcount (pfn L p) 0,
          s.mem⟩
      = .ok () ⟨s.use_lock, p, inc32 s.freepages,
          Function.update s.pagerefcount (pfn L p) 0,
          store32 (memset s.mem p 1 PGSIZE) p s.freelist⟩ := by
  rw [kfree_reclaim _ hv (by simp)]
  simp only [Function.update_idem]

/-- Donating distinct accepted pages succeeds whatever the table held: the
pages are pushed in order, the counter rises by their number, their table
entries end at 0 and the other entries are untouched. -/
theorem donate_pushes (L : Layout) (hk : 0 < L.kend) :
    ∀ (ps : List Nat) (s : Kmem), s.freelist < 2 ^ 32 → s.freepages < 2 ^ 32 → ps.Nodup →
      (∀ p ∈ ps, p < 2 ^ 32 ∧ ¬ kfreeRejects L p) →
      ∃ s1, donate L ps s = .ok () s1 ∧
        listSeg s1.mem s1.freelist ps.reverse s.freelist ∧
        (∀ x, (∀ p ∈ ps, x + 4 ≤ p ∨ p + PGSIZE ≤ x) → load32 s1.mem x = load32 s.mem x) ∧
        s1.freepages = (s.freepages + ps.length) % 2 ^ 32 ∧
        (∀ p ∈ ps, s1.pagerefcount (pfn L p) = 0) ∧
        (∀ i, (∀ p ∈ ps, i ≠ pfn L p) → s1.pagerefcount i = s.pagerefcount i)
  | [], s, _, hc, _, _ => by
    refine ⟨s, rfl, rfl, fun _ _ => rfl, ?_, fun _ h => absurd h (List.not_mem_nil _),
      fun _ _ => rfl⟩
    simp only [List.length_nil, Nat.add_zero]
    omega
  | f :: fs, s, hs, hc, hd, hf => by
    obtain ⟨hf32, hfv⟩ := hf f (List.mem_cons_self _ _)
    have hfa : f % PGSIZE = 0 ∧ f ≠ 0 := by
      simp only [kfreeRejects, PGSIZE] at hfv ⊢; omega
    obtain ⟨hnot, hd2⟩ := List.nodup_cons.1 hd
    obtain ⟨s1, hall, hseg, hfr, hcnt, hzero, hrest⟩ := donate_pushes L hk fs
      ⟨s.use_lock, f, inc32 s.freepages, Function.update s.pagerefcount (pfn L f) 0,
        store32 (memset s.mem f 1 PGSIZE) f s.freelist⟩ hf32
      (by simp only [inc32]; omega) hd2
      (fun g hg => hf g (List.mem_cons_of_mem _ hg))
    have hlink : load32 s1.mem f = s.freelist := by
      rw [hfr f (fun g hg => ?_)]
      · exact load32_store32 _ _ _ hs
      · have hgv := (hf g (List.mem_cons_of_mem _ hg)).2
        have hga : g % PGSIZE = 0 := by
          simp only [kfreeRejects, PGSIZE] at hgv ⊢; omega
        have hne : f ≠ g := by rintro rfl; exact hnot hg
        exact apart_of_aligned hfa.1 hga hne
    refine ⟨s1, ?_, ?_, ?_, ?_, ?_, ?_⟩
    · simp only [donate, donate_step s hfv]; exact hall
    · rw [List.reverse_cons]
      exact listSeg_append _ _ _ _ _ hseg ⟨rfl, hfa.2, by rw [hlink]; rfl⟩
    · intro x hx
      rw [hfr x (fun g hg => hx g (List.mem_cons_of_mem _ hg))]
      exact load32_push _ _ _ _ (hx f (List.mem_cons_self _ _))
    · rw [hcnt]
      simp only [inc32, List.length_cons]
      omega
    · intro g hg
      rcases List.mem_cons.1 hg with rfl | hg2
      · by_cases hex : ∃ q ∈ fs, pfn L g = pfn L q
        · obtain ⟨q, hq, he⟩ := hex
          rw [he]; exact hzero q hq
        · rw [hrest _ (fun q hq he => hex ⟨q, hq, he⟩)]
          exact Function.update_same _ _ _
      · exact hzero g hg2
    · intro i hi
      rw [hrest i (fun q hq => hi q (List.mem_cons_of_mem _ hq))]
      exact Function.update_noteq (hi f (List.mem_cons_self _ _)) _ _

/-! ## The 32-bit cursor of `freerange` -/

/-- When the end of the range and the cursor are at least two pages below
`2 ^ 32`, the loop with the 32-bit cursor, given enough fuel, does exactly what
the loop with exact arithmetic does: the cursor never wraps. -/
theorem freerangeLoop32_agrees (L : Layout) (vend : Nat) (hv : vend + 2 * PGSIZE ≤ 2 ^ 32) :
    ∀ (fuel p : Nat) (s : Kmem), p + 2 * PGSIZE ≤ 2 ^ 32 → (vend - p) / 4096 < fuel →
      freerangeLoop32 L vend fuel p s = some (freerangeLoop L vend p s)
  | 0, _, _, _, hf => absurd hf (Nat.not_lt_zero _)
  | fuel + 1, p, s, hp, hf => by
    simp only [PGSIZE] at hv hp
    have hmod : (p + PGSIZE) % 2 ^ 32 = p + PGSIZE := by
      simp only [PGSIZE]; omega
    rw [freerangeLoop]
    simp only [freerangeLoop32, hmod]
    by_cases hg : p + PGSIZE ≤ vend
    · rw [if_pos hg, if_pos hg]
      have ih : ∀ s1, freerangeLoop32 L vend fuel (p + PGSIZE) s1
          = some (freerangeLoop L vend (p + PGSIZE) s1) := fun s1 =>
        freerangeLoop32_agrees L vend (by simp only [PGSIZE]; omega) fuel (p + PGSIZE) s1
          (by simp only [PGSIZE] at hg ⊢; omega) (by simp only [PGSIZE] at hg ⊢; omega)
      cases kfree L p
        ⟨s.use_lock, s.freelist, s.freepages, Function.update s.pagerefcount (pfn L p) 0,
          s.mem⟩ with
      | ok _ s1 => exact ih s1
      | panicked _ _ => rfl
    · rw [if_neg hg, if_neg hg]

/-- For a range `[a, b)` with `a ≤ b` that ends at least two pages below `2 ^ 32`,
`freerange` is what the source's loop with its 32-bit cursor computes. -/
theorem freerange_agrees_32 (L : Layout) (a b : Nat) (s : Kmem) (hab : a ≤ b)
    (hroom : b + 2 * PGSIZE ≤ 2 ^ 32) (fuel : Nat) (hf : (b - PGROUNDUP a) / 4096 < fuel) :
    freerangeLoop32 L b fuel (PGROUNDUP a) s = some (freerange L a b s) := by
  refine freerangeLoop32_agrees L b hroom fuel _ s ?_ hf
  simp only [PGROUNDUP, PGSIZE] at hroom ⊢
  omega

theorem mem_specDonated (a b p : Nat) :
    p ∈ specDonated a b ↔ (p % 4096 = 0 ∧ a ≤ p ∧ p + 4096 ≤ b) := by
  simp only [specDonated, roundUp, List.mem_map, List.mem_range]
  constructor
  · rintro ⟨k, hk, rfl⟩
    omega
  · rintro ⟨h1, h2, h3⟩
    exact ⟨(p - (a + 4095) / 4096 * 4096) / 4096, by omega, by omega⟩

theorem specDonated_ascending (a b : Nat) :
    (specDonated a b).Pairwise (fun x y => x < y) := by
  simp only [specDonated, List.pairwise_map]
  refine List.Pairwise.imp ?_ (List.pairwise_lt_range _)
  intro x y h
  omega

/-- C10: for a range `[a, b)` inside the managed zone `[end, KERNBASE + PHYSTOP)`
that ends at least two pages below `2 ^ 32`, so that the 32-bit cursor of the
loop cannot wrap, `freerange(a, b)` returns after running its loop body (clear
the table entry, then `kfree`) on exactly the pages `round_up(a) + k * 4096`,
`0 ≤ k < ⌊(b − round_up(a)) / 4096⌋`, in ascending order.  These are exactly the
page-aligned addresses `p` with `a ≤ p` and `p + 4096 ≤ b`, so no partial page is
donated.  Whatever the table held, every one of them is pushed on the free
list and ends with reference count 0, the other table entries are unchanged,
and the counter rises by `⌊(b − round_up(a)) / 4096⌋`.  The loop with the cursor
taken modulo `2 ^ 32`, followed for more than that many guard tests, gives the
same outcome. -/
theorem freerange_donates_contained_pages (L : Layout) (s : Kmem) (a b : Nat)
    (hL : L.ok) (hs : s.freelist < 2 ^ 32) (hc : s.freepages < 2 ^ 32)
    (ha : L.kend ≤ a) (hab : a ≤ b) (hb : b ≤ L.KERNBASE + L.PHYSTOP)
    (hroom : b + 2 * PGSIZE ≤ 2 ^ 32) :
    ∃ s1, freerange L a b s = .ok () s1 ∧
      freerange L a b s = donate L (specDonated a b) s ∧
      (specDonated a b).Pairwise (fun x y => x < y) ∧
      (∀ p, p ∈ specDonated a b ↔ (p % 4096 = 0 ∧ a ≤ p ∧ p + 4096 ≤ b)) ∧
      listSeg s1.mem s1.freelist (specDonated a b).reverse s.freelist ∧
      (∀ p ∈ specDonated a b, s1.pagerefcount (pfn L p) = 0) ∧
      (∀ i, (∀ p ∈ specDonated a b, i ≠ pfn L p) → s1.pagerefcount i = s.pagerefcount i) ∧
      s1.freepages = (s.freepages + (b - roundUp a) / 4096) % 2 ^ 32 ∧
      (s.freepages + (b - roundUp a) / 4096 < 2 ^ 32 →
        s1.freepages = s.freepages + (b - roundUp a) / 4096) ∧
      (∀ fuel, (b - roundUp a) / 4096 < fuel →
        freerangeLoop32 L b fuel (PGROUNDUP a) s = some (freerange L a b s)) := by
  obtain ⟨hk, hbase, htop⟩ := hL
  simp only [PGSIZE] at htop
  have hround : PGROUNDUP a = roundUp a := by
    simp only [PGROUNDUP, roundUp, PGSIZE]
    omega
  have heq : freerange L a b s = donate L (specDonated a b) s := by
    unfold freerange
    rw [hround]
    exact freerangeLoop_eq_donate L b _ _ s rfl
  have hacc : ∀ p ∈ specDonated a b, p < 2 ^ 32 ∧ ¬ kfreeRejects L p := by
    intro p hp
    obtain ⟨h1, h2, h3⟩ := (mem_specDonated a b p).1 hp
    refine ⟨by omega, ?_⟩
    simp only [kfreeRejects, V2P, PGSIZE]
    omega
  have hnd : (specDonated a b).Nodup :=
    List.Pairwise.imp (fun h => Nat.ne_of_lt h) (specDonated_ascending a b)
  obtain ⟨s1, h1, h2, _, h4, h5, h6⟩ :=
    donate_pushes L hk (specDonated a b) s hs hc hnd hacc
  have hlen : (specDonated a b).length = (b - roundUp a) / 4096 := by
    simp only [specDonated, List.length_map, List.length_range]
  rw [hlen] at h4
  refine ⟨s1, heq.trans h1, heq, specDonated_ascending a b, mem_specDonated a b, h2, h5, h6,
    h4, fun hlt => ?_, fun fuel hf => ?_⟩
  · rw [h4]; omega
  · exact freerange_agrees_32 L a b s hab hroom fuel (by rw [hround]; exact hf)

/-- C10 (witness): `freerange` over `[0x80200001, 0x80203fff)` in the xv6 layout
donates the two pages at `0x80201000` and `0x80202000`: the partial pages at
both ends are left out and the counter goes from 0 to 2. -/
theorem freerange_donates_contained_pages_witness :
    specDonated 0x80200001 0x80203fff = [0x80201000, 0x80202000] ∧
    ∃ s1, freerange xv6 0x80200001 0x80203fff emptyPool = .ok () s1 ∧
      s1.freepages = 2 ∧
      freerangeLoop32 xv6 0x80203fff 3 (PGROUNDUP 0x80200001) emptyPool
        = some (freerange xv6 0x80200001 0x80203fff emptyPool) :=
  have h := freerange_donates_contained_pages xv6 emptyPool 0x80200001 0x80203fff
    ⟨by decide, by decide, by decide⟩ (by decide) (by decide) (by decide) (by decide)
    (by decide) (by decide)
  ⟨by decide, h.imp fun _ hs =>
    ⟨hs.1, hs.2.2.2.2.2.2.2.1.trans (by decide), hs.2.2.2.2.2.2.2.2.2 3 (by decide)⟩⟩

/-! ## Reference-count operations -/

theorem outcome_returned_false_iff {α : Type} (o : Outcome α) :
    o.returned = false ↔ ∃ msg s, o = .panicked msg s := by
  cases o with
  | ok v s => simp [Outcome.returned]
  | panicked msg s => simp [Outcome.returned]

theorem increfcount_returned (L : Layout) (s : Kmem) (p : Nat) :
    (increfcount L p s).returned = false ↔ refRejects L p := by
  by_cases h : refRejects L p <;> simp [increfcount, h, Outcome.returned]

theorem decrefcount_returned (L : Layout) (s : Kmem) (p : Nat) :
    (decrefcount L p s).returned = false ↔ refRejects L p := by
  by_cases h : refRejects L p <;> simp [decrefcount, h, Outcome.returned]

theorem getrefcount_returned (L : Layout) (s : Kmem) (p : Nat) :
    (getrefcount L p s).returned = false ↔ refRejects L p := by
  by_cases h : refRejects L p <;> simp [getrefcount, h, Outcome.returned]

/-- C13: each of `increfcount`, `decrefcount` and `getrefcount` panics exactly
when `paddr < V2P(end)` or `paddr >= PHYSTOP`, and then the state at the panic is
the state it was called in.  `V2P(end)`, when below `PHYSTOP`, is accepted by all
three, and `PHYSTOP` makes all three panic. -/
theorem ref_ops_panic_iff (L : Layout) (s : Kmem) (p : Nat) :
    ((increfcount L p s).returned = false ↔ (p < V2P L L.kend ∨ p ≥ L.PHYSTOP)) ∧
    ((decrefcount L p s).returned = false ↔ (p < V2P L L.kend ∨ p ≥ L.PHYSTOP)) ∧
    ((getrefcount L p s).returned = false ↔ (p < V2P L L.kend ∨ p ≥ L.PHYSTOP)) ∧
    ((increfcount L p s).returned = false →
      increfcount L p s = .panicked "incrementReferenceCount" s) ∧
    ((decrefcount L p s).returned = false →
      decrefcount L p s = .panicked "decrementReferenceCount" s) ∧
    ((getrefcount L p s).returned = false →
      getrefcount L p s = .panicked "getReferenceCount" s) ∧
    (V2P L L.kend < L.PHYSTOP →
      (increfcount L (V2P L L.kend) s).returned = true ∧
      (decrefcount L (V2P L L.kend) s).returned = true ∧
      (getrefcount L (V2P L L.kend) s).returned = true) ∧
    increfcount L L.PHYSTOP s = .panicked "incrementReferenceCount" s ∧
    decrefcount L L.PHYSTOP s = .panicked "decrementReferenceCount" s ∧
    getrefcount L L.PHYSTOP s = .panicked "getReferenceCount" s := by
  have htop : refRejects L L.PHYSTOP := Or.inr (Nat.le_refl _)
  refine ⟨increfcount_returned L s p, decrefcount_returned L s p, getrefcount_returned L s p,
    ?_, ?_, ?_, ?_, ?_, ?_, ?_⟩
  · intro h
    have hr := (increfcount_returned L s p).1 h
    unfold increfcount; rw [if_pos hr]
  · intro h
    have hr := (decrefcount_returned L s p).1 h
    unfold decrefcount; rw [if_pos hr]
  · intro h
    have hr := (getrefcount_returned L s p).1 h
    unfold getrefcount; rw [if_pos hr]
  · intro h
    have hn : ¬ refRejects L (V2P L L.kend) := by unfold refRejects; omega
    refine ⟨?_, ?_, ?_⟩
    · cases hr : (increfcount L (V2P L L.kend) s).returned
      · exact absurd ((increfcount_returned L s _).1 hr) hn
      · rfl
    · cases hr : (decrefcount L (V2P L L.kend) s).returned
      · exact absurd ((decrefcount_returned L s _).1 hr) hn
      · rfl
    · cases hr : (getrefcount L (V2P L L.kend) s).returned
      · exact absurd ((getrefcount_returned L s _).1 hr) hn
      · rfl
  · unfold increfcount; rw [if_pos htop]
  · unfold decrefcount; rw [if_pos htop]
  · unfold getrefcount; rw [if_pos htop]

/-- C13 (witness): in the xv6 layout `V2P(end) = 0x116000` is accepted by the
three operations. -/
theorem ref_ops_panic_iff_witness :
    V2P xv6 xv6.kend < xv6.PHYSTOP ∧
    (increfcount xv6 (V2P xv6 xv6.kend) emptyPool).returned = true ∧
    (decrefcount xv6 (V2P xv6 xv6.kend) emptyPool).returned = true ∧
    (getrefcount xv6 (V2P xv6 xv6.kend) emptyPool).returned = true :=
  ⟨by decide, (ref_ops_panic_iff xv6 emptyPool 0).2.2.2.2.2.2.1 (by decide)⟩

/-- C14: for `V2P(end) <= paddr < PHYSTOP`, `decrefcount(paddr)` returns after
replacing the table entry at `paddr >> 12` by its value minus one modulo
`2 ^ 32` (0 becomes `2 ^ 32 - 1`, 1 becomes 0) and changes nothing else: head
pointer, counter, memory, hence the free list, and the other table entries
are as before, also when the entry reaches 0. -/
theorem decref_raw_decrement (L : Layout) (s : Kmem) (p : Nat)
    (h1 : V2P L L.kend ≤ p) (h2 : p < L.PHYSTOP) :
    ∃ s1, decrefcount L p s = .ok () s1 ∧
      s1.pagerefcount (p >>> 12) = (s.pagerefcount (p >>> 12) + (2 ^ 32 - 1)) % 2 ^ 32 ∧
      (s.pagerefcount (p >>> 12) = 0 → s1.pagerefcount (p >>> 12) = 2 ^ 32 - 1) ∧
      (s.pagerefcount (p >>> 12) = 1 → s1.pagerefcount (p >>> 12) = 0) ∧
      s1.freelist = s.freelist ∧ s1.freepages = s.freepages ∧ s1.mem = s.mem ∧
      s1.use_lock = s.use_lock ∧
      (∀ l, FreeList s.mem s.freelist l → FreeList s1.mem s1.freelist l) ∧
      ∀ i, i ≠ p >>> 12 → s1.pagerefcount i = s.pagerefcount i := by
  have hr : ¬ refRejects L p := by unfold refRejects; omega
  refine ⟨⟨s.use_lock, s.freelist, s.freepages,
      Function.update s.pagerefcount (p >>> PGSHIFT) (dec32 (s.pagerefcount (p >>> PGSHIFT))),
      s.mem⟩, by unfold decrefcount; rw [if_neg hr], ?_, ?_, ?_, rfl, rfl, rfl, rfl,
    fun l h => h, ?_⟩
  · simp only [PGSHIFT, Function.update_same, dec32]
  · intro h0
    simp only [PGSHIFT, Function.update_same, dec32, h0]
    decide
  · intro h0
    simp only [PGSHIFT, Function.update_same, dec32, h0]
    decide
  · intro i hi
    simp only [PGSHIFT, Function.update_noteq hi]

/-- C14 (witness): a zero count at the first managed frame becomes
`2 ^ 32 - 1`, and the frame is not put on the free list. -/
theorem decref_raw_decrement_witness :
    ∃ s1, decrefcount xv6 0x116000 emptyPool = .ok () s1 ∧
      s1.pagerefcount (0x116000 >>> 12) = 2 ^ 32 - 1 ∧
      s1.freelist = 0 ∧ s1.freepages = 0 :=
  have h := decref_raw_decrement xv6 emptyPool 0x116000 (by decide) (by decide)
  h.imp fun _ hs => ⟨hs.1, hs.2.2.1 rfl, hs.2.2.2.2.1, hs.2.2.2.2.2.1⟩

/-! ## Poison -/

/-- C15 (counterexample): the frame at `0x80200000` is held once, every byte
of memory is `0xAA` and the free list is empty.  `kfree` drives the count to 0,
and afterwards the first byte of the page is `0x00`, the low byte of the null
pointer stored as the `next` link, while the byte after the link is 1. -/
theorem kfree_first_word_not_poison :
    ¬ kfreeRejects xv6 0x80200000 ∧
    heldAA.pagerefcount (pfn xv6 0x80200000) = 1 ∧
    (kfree xv6 0x80200000 heldAA).returned = true ∧
    (kfree xv6 0x80200000 heldAA).state.pagerefcount (pfn xv6 0x80200000) = 0 ∧
    (kfree xv6 0x80200000 heldAA).state.mem 0x80200000 = 0 ∧
    (kfree xv6 0x80200000 heldAA).state.mem 0x80200004 = 1 := by
  have hv : ¬ kfreeRejects xv6 0x80200000 := by decide
  rw [kfree_reclaim heldAA hv (by decide)]
  refine ⟨hv, rfl, rfl, ?_, ?_, ?_⟩
  · simp [Outcome.state]
  · simp [Outcome.state, store32, heldAA]
  · simp [Outcome.state, store32, memset, PGSIZE]

/-- C15 (amended): when `kfree` of an accepted address `v` leaves its count at 0,
every byte of the page from offset 4 to offset 4095 equals 1, the poison byte
(which is neither `0x00` nor `0xAA`), whatever the page held before; the first
four bytes hold the previous head pointer, stored as the `next` link. -/
theorem kfree_poisons_after_link (L : Layout) (s : Kmem) (v : Nat)
    (hp : s.freelist < 2 ^ 32)
    (hv : ¬ kfreeRejects L v) (hc : s.pagerefcount (pfn L v) ≤ 1) :
    ∃ s1, kfree L v s = .ok () s1 ∧
      s1.pagerefcount (pfn L v) = 0 ∧
      (∀ x, v + 4 ≤ x → x < v + 4096 → s1.mem x = 1) ∧
      (1 : Nat) ≠ 0x00 ∧ (1 : Nat) ≠ 0xAA ∧
      load32 s1.mem v = s.freelist ∧
      s1.mem v = s.freelist % 256 := by
  refine ⟨_, kfree_reclaim s hv hc, ?_, ?_, by decide, by decide,
    load32_store32 _ _ _ hp, ?_⟩
  · simp only [Function.update_same]
  · intro x h1 h2
    have e1 : x ≠ v := by omega
    have e2 : x ≠ v + 1 := by omega
    have e3 : x ≠ v + 2 := by omega
    have e4 : x ≠ v + 3 := by omega
    have e5 : v ≤ x ∧ x < v + 4096 := by omega
    simp [store32, memset, PGSIZE, e1, e2, e3, e4, e5]
  · simp [store32]

/-- C15 (witness): the held frame at `0x80200000` in memory full of `0xAA`. -/
theorem kfree_poisons_after_link_witness :
    ∃ s1, kfree xv6 0x80200000 heldAA = .ok () s1 ∧
      ∀ x, 0x80200000 + 4 ≤ x → x < 0x80200000 + 4096 → s1.mem x = 1 :=
  have h := kfree_poisons_after_link xv6 heldAA 0x80200000 (by decide) (by decide) (by decide)
  h.imp fun _ hs => ⟨hs.1, hs.2.2.1⟩

/-! ## Initialisation and draining -/

theorem freerange_eq_donate (L : Layout) (a b : Nat) (s : Kmem) :
    freerange L a b s = donate L (rangePages a b) s :=
  freerangeLoop_eq_donate L b _ _ s rfl

theorem PGROUNDUP_eq_roundUp {a : Nat} (h : a + 4095 < 2 ^ 32) : PGROUNDUP a = roundUp a := by
  simp only [PGROUNDUP, roundUp, PGSIZE]
  omega

/-- What `kinit1` does is what the source's loop with its 32-bit cursor computes
from the state with the counter zeroed and `use_lock` cleared, when the range
ends at least two pages below `2 ^ 32`. -/
theorem kinit1_agrees_32 (L : Layout) (a b : Nat) (s : Kmem) (hab : a ≤ b)
    (hroom : b + 2 * PGSIZE ≤ 2 ^ 32) (fuel : Nat) (hf : (specDonated a b).length < fuel) :
    freerangeLoop32 L b fuel (PGROUNDUP a) ⟨false, s.freelist, 0, s.pagerefcount, s.mem⟩
      = some (kinit1 L a b s) := by
  have h32 : a + 4095 < 2 ^ 32 := by
    simp only [PGSIZE] at hroom; omega
  refine freerange_agrees_32 L a b _ hab hroom fuel ?_
  rw [PGROUNDUP_eq_roundUp h32]
  simpa only [specDonated, List.length_map, List.length_range] using hf

theorem rangePages_eq_spec {a : Nat} (b : Nat) (h : a + 4095 < 2 ^ 32) :
    rangePages a b = specDonated a b := by
  have hround : PGROUNDUP a = roundUp a := by
    simp only [PGROUNDUP, roundUp, PGSIZE]
    omega
  simp only [rangePages, specDonated, hround]

theorem kfree_use_lock {L : Layout} {v : Nat} {s s1 : Kmem} (h : kfree L v s = .ok () s1) :
    s1.use_lock = s.use_lock := by
  by_cases hv : kfreeRejects L v
  · rw [kfree_rejected s hv] at h
    exact Outcome.noConfusion h
  · unfold kfree at h
    rw [if_neg hv] at h
    injection h with _ hs
    rw [← hs]
    split_ifs <;> rfl

theorem donate_use_lock (L : Layout) :
    ∀ (ps : List Nat) (s s1 : Kmem), donate L ps s = .ok () s1 → s1.use_lock = s.use_lock
  | [], s, s1, h => by
    simp only [donate] at h
    injection h with _ hs
    rw [hs]
  | p :: ps, s, s1, h => by
    simp only [donate] at h
    cases hk : kfree L p
      ⟨s.use_lock, s.freelist, s.freepages, Function.update s.pagerefcount (pfn L p) 0,
        s.mem⟩ with
    | ok _ s2 =>
      rw [hk] at h
      rw [donate_use_lock L ps s2 s1 h, kfree_use_lock hk]
    | panicked _ _ =>
      rw [hk] at h
      exact Outcome.noConfusion h

/-- The pages of a range inside the managed zone are accepted by `kfree`. -/
theorem specDonated_accepted {L : Layout} (hL : L.ok) {a b : Nat} (ha : L.kend ≤ a)
    (hb : b ≤ L.KERNBASE + L.PHYSTOP) :
    ∀ p ∈ specDonated a b, p < 2 ^ 32 ∧ ¬ kfreeRejects L p := by
  obtain ⟨_, hbase, htop⟩ := hL
  simp only [PGSIZE] at htop
  intro p hp
  obtain ⟨h1, h2, h3⟩ := (mem_specDonated a b p).1 hp
  refine ⟨by omega, ?_⟩
  simp only [kfreeRejects, V2P, PGSIZE]
  omega

theorem specDonated_nodup (a b : Nat) : (specDonated a b).Nodup :=
  List.Pairwise.imp (fun h => Nat.ne_of_lt h) (specDonated_ascending a b)

theorem specDonated_length (a b : Nat) :
    (specDonated a b).length = (b - roundUp a) / 4096 := by
  simp only [specDonated, List.length_map, List.length_range]

/-- What `freerange` does over a range inside the managed zone. -/
theorem freerange_zone_pushes {L : Layout} (hL : L.ok) (s : Kmem) {a b : Nat}
    (hs : s.freelist < 2 ^ 32) (hc : s.freepages < 2 ^ 32)
    (ha : L.kend ≤ a) (hab : a ≤ b) (hb : b ≤ L.KERNBASE + L.PHYSTOP) :
    ∃ s1, freerange L a b s = .ok () s1 ∧
      listSeg s1.mem s1.freelist (specDonated a b).reverse s.freelist ∧
      (∀ x, (∀ p ∈ specDonated a b, x + 4 ≤ p ∨ p + PGSIZE ≤ x) →
        load32 s1.mem x = load32 s.mem x) ∧
      s1.freepages = (s.freepages + (specDonated a b).length) % 2 ^ 32 ∧
      (∀ p ∈ specDonated a b, s1.pagerefcount (pfn L p) = 0) ∧
      (∀ i, (∀ p ∈ specDonated a b, i ≠ pfn L p) → s1.pagerefcount i = s.pagerefcount i) ∧
      s1.use_lock = s.use_lock := by
  have htop := hL.top_le
  simp only [PGSIZE] at htop
  have heq : freerange L a b s = donate L (specDonated a b) s := by
    rw [freerange_eq_donate, rangePages_eq_spec b (by omega)]
  obtain ⟨s1, h1, h2, h3, h4, h5, h6⟩ :=
    donate_pushes L hL.kend_pos (specDonated a b) s hs hc (specDonated_nodup a b)
      (specDonated_accepted hL ha hb)
  exact ⟨s1, heq.trans h1, h2, h3, h4, h5, h6, donate_use_lock L _ _ _ h1⟩

/-- After `kalloc` has popped the nodes `l`, the head pointer is where the walk
over `l` arrived. -/
theorem kallocN_freelist (L : Layout) :
    ∀ (l : List Nat) (s : Kmem) (q : Nat), listSeg s.mem s.freelist l q →
      (kallocN L l.length s).2.freelist = q
  | [], _, _, h => h
  | x :: xs, s, q, h => by
    obtain ⟨h1, h2, h3⟩ := h
    have hnz : s.freelist ≠ 0 := by rw [h1]; exact h2
    have ih := kallocN_freelist L xs (kalloc L s).2 q (by rw [kalloc_pop s hnz, h1]; exact h3)
    simp only [List.length_cons, kallocN, ih]

/-- C11: `kinit1` on the zero-initialised allocator (empty free list) over a
range of the managed zone that contains `n` whole pages and ends at least two
pages below `2 ^ 32` (so that the 32-bit cursor of the loop cannot wrap)
returns; then `numFreePages` returns `n`, the next `n` calls of `kalloc` return
the donated pages, which are non-null, page-aligned and pairwise distinct, and
the call after them returns null.  The loop with the cursor taken modulo
`2 ^ 32`, followed for more than `n` guard tests, gives the same outcome of
`kinit1`. -/
theorem donate_and_drain (L : Layout) (s : Kmem) (a b n : Nat)
    (hL : L.ok) (h0 : s.freelist = 0)
    (ha : L.kend ≤ a) (hab : a ≤ b) (hb : b ≤ L.KERNBASE + L.PHYSTOP)
    (hroom : b + 2 * PGSIZE ≤ 2 ^ 32)
    (hn : (specDonated a b).length = n) :
    ∃ s1, kinit1 L a b s = .ok () s1 ∧
      (numFreePages s1).1 = n ∧
      (kallocN L n s1).1.length = n ∧
      (kallocN L n s1).1 = (specDonated a b).reverse ∧
      (∀ v ∈ (kallocN L n s1).1, v ≠ 0 ∧ v % 4096 = 0) ∧
      (kallocN L n s1).1.Nodup ∧
      (kalloc L (kallocN L n s1).2).1 = 0 ∧
      (∀ fuel, n < fuel →
        freerangeLoop32 L b fuel (PGROUNDUP a) ⟨false, s.freelist, 0, s.pagerefcount, s.mem⟩
          = some (kinit1 L a b s)) := by
  have htop := hL.top_le
  simp only [PGSIZE] at htop
  obtain ⟨s1, h1, h2, _, h4, _, _, _⟩ :=
    freerange_zone_pushes hL ⟨false, s.freelist, 0, s.pagerefcount, s.mem⟩
      (by show s.freelist < 2 ^ 32; rw [h0]; decide) (by show 0 < 2 ^ 32; decide) ha hab hb
  have hpop := kallocN_pops L (specDonated a b).reverse s1 s.freelist h2
  have hfl := kallocN_freelist L (specDonated a b).reverse s1 s.freelist h2
  rw [List.length_reverse, hn] at hpop hfl
  have hlen : n < 2 ^ 32 := by
    rw [← hn, specDonated_length]; omega
  refine ⟨s1, h1, ?_, ?_, hpop, ?_, ?_, ?_, ?_⟩
  · show s1.freepages = n
    rw [h4, hn]
    simp only [Nat.zero_add]
    exact Nat.mod_eq_of_lt hlen
  · rw [hpop, List.length_reverse, hn]
  · intro v hv
    rw [hpop, List.mem_reverse] at hv
    obtain ⟨e1, e2, e3⟩ := (mem_specDonated a b v).1 hv
    have := hL.kend_pos
    exact ⟨by omega, e1⟩
  · rw [hpop]
    exact List.nodup_reverse.2 (specDonated_nodup a b)
  · rw [kalloc_fst, hfl, h0]
  · intro fuel hf
    exact kinit1_agrees_32 L a b s hab hroom fuel (by rw [hn]; exact hf)

/-- C11 (witness): four frames donated to the empty pool in the xv6 layout. -/
theorem donate_and_drain_witness :
    ∃ s1, kinit1 xv6 0x80200000 0x80204000 emptyPool = .ok () s1 ∧
      (numFreePages s1).1 = 4 ∧
      (kallocN xv6 4 s1).1 = [0x80203000, 0x80202000, 0x80201000, 0x80200000] ∧
      (kalloc xv6 (kallocN xv6 4 s1).2).1 = 0 :=
  have h := donate_and_drain xv6 emptyPool 0x80200000 0x80204000 4
    ⟨by decide, by decide, by decide⟩ rfl (by decide) (by decide) (by decide) (by decide)
    (by decide)
  h.imp fun _ hs => ⟨hs.1, hs.2.1, hs.2.2.2.1.trans (by decide), hs.2.2.2.2.2.2.1⟩

/-- The free list headed by a pointer, when there is one, is determined by the
memory. -/
theorem freeList_unique {m : Mem} :
    ∀ (l1 l2 : List Nat) (p : Nat), FreeList m p l1 → FreeList m p l2 → l1 = l2
  | [], [], _, _, _ => rfl
  | [], y :: ys, p, h1, h2 => by
    have e1 : p = 0 := h1
    obtain ⟨e2, e3, _⟩ := h2
    exact absurd (e2.symm.trans e1) e3
  | x :: xs, [], p, h1, h2 => by
    have e1 : p = 0 := h2
    obtain ⟨e2, e3, _⟩ := h1
    exact absurd (e2.symm.trans e1) e3
  | x :: xs, y :: ys, p, h1, h2 => by
    obtain ⟨a1, _, a3⟩ := h1
    obtain ⟨b1, _, b3⟩ := h2
    have e : x = y := a1.symm.trans b1
    subst e
    rw [freeList_unique xs ys _ a3 b3]

/-- `kinit1` over the one page at `0x80201000`, called on the pool whose free
list is `[0x80200000]`. -/
theorem kinit1_oneFree :
    ∃ s1, kinit1 xv6 0x80201000 0x80202000 oneFree = .ok () s1 ∧
      FreeList s1.mem s1.freelist [0x80201000, 0x80200000] ∧ s1.freepages = 1 := by
  have hL : xv6.ok := ⟨by decide, by decide, by decide⟩
  have hsp : specDonated 0x80201000 0x80202000 = [0x80201000] := by decide
  obtain ⟨s1, h1, h2, h3, h4, _, _, _⟩ :=
    freerange_zone_pushes hL ⟨false, oneFree.freelist, 0, oneFree.pagerefcount, oneFree.mem⟩
      (a := 0x80201000) (b := 0x80202000)
      (by show oneFree.freelist < 2 ^ 32; decide) (by show 0 < 2 ^ 32; decide)
      (by decide) (by decide) (by decide)
  rw [hsp] at h2 h3 h4
  have hold : load32 s1.mem 0x80200000 = 0 := by
    rw [h3 0x80200000 (by simp [PGSIZE])]
    simp [load32, oneFree]
  refine ⟨s1, h1, ?_, by rw [h4]; rfl⟩
  obtain ⟨e1, e2, e3⟩ := h2
  have e4 : load32 s1.mem 0x80201000 = 0x80200000 := e3
  refine ⟨e1, e2, ?_⟩
  rw [e4]
  exact ⟨rfl, by decide, hold⟩

/-- C12 (counterexample): `kinit1` over the one page at `0x80201000`, called on
the pool whose free list is `[0x80200000]`, returns with the old node still
on the free list behind the donated page, and with the counter at 1 for a
free list of two nodes: the free list is not the donated page alone. -/
theorem kinit1_keeps_old_list :
    FreeList oneFree.mem oneFree.freelist [0x80200000] ∧
    specDonated 0x80201000 0x80202000 = [0x80201000] ∧
    (kinit1 xv6 0x80201000 0x80202000 oneFree).returned = true ∧
    FreeList (kinit1 xv6 0x80201000 0x80202000 oneFree).state.mem
      (kinit1 xv6 0x80201000 0x80202000 oneFree).state.freelist
      [0x80201000, 0x80200000] ∧
    ¬ FreeList (kinit1 xv6 0x80201000 0x80202000 oneFree).state.mem
      (kinit1 xv6 0x80201000 0x80202000 oneFree).state.freelist
      [0x80201000] ∧
    (kinit1 xv6 0x80201000 0x80202000 oneFree).state.freepages = 1 := by
  obtain ⟨s1, hk, hfl, hcnt⟩ := kinit1_oneFree
  rw [hk]
  refine ⟨by simp [FreeList, listSeg, load32, oneFree], by decide, rfl, hfl, ?_, hcnt⟩
  intro hc
  have := freeList_unique _ _ _ hfl hc
  simp at this

/-- C12 (amended): `kinit1` over a range inside the managed zone that ends at
least two pages below `2 ^ 32` (so that the 32-bit cursor of the loop cannot
wrap), called on any prior state, zeroes the counter and clears `use_lock`
before donating, and does not reset the head pointer: it returns with
`use_lock` false, with the counter equal to the number of donated pages, and
with the donated pages at the front of the free list, linked to whatever the
head pointed to before.  When the free list was empty on entry, the free list
afterwards consists of exactly the donated pages.  The loop with the cursor
taken modulo `2 ^ 32`, followed for more guard tests than there are donated
pages, gives the same outcome of `kinit1`. -/
theorem kinit1_donates (L : Layout) (s : Kmem) (a b : Nat)
    (hL : L.ok) (hs : s.freelist < 2 ^ 32)
    (ha : L.kend ≤ a) (hab : a ≤ b) (hb : b ≤ L.KERNBASE + L.PHYSTOP)
    (hroom : b + 2 * PGSIZE ≤ 2 ^ 32) :
    ∃ s1, kinit1 L a b s = .ok () s1 ∧
      s1.use_lock = false ∧
      s1.freepages = (specDonated a b).length ∧
      listSeg s1.mem s1.freelist (specDonated a b).reverse s.freelist ∧
      (s.freelist = 0 → FreeList s1.mem s1.freelist (specDonated a b).reverse) ∧
      (∀ fuel, (specDonated a b).length < fuel →
        freerangeLoop32 L b fuel (PGROUNDUP a) ⟨false, s.freelist, 0, s.pagerefcount, s.mem⟩
          = some (kinit1 L a b s)) := by
  have htop := hL.top_le
  simp only [PGSIZE] at htop
  obtain ⟨s1, h1, h2, _, h4, _, _, h7⟩ :=
    freerange_zone_pushes hL ⟨false, s.freelist, 0, s.pagerefcount, s.mem⟩
      hs (by show 0 < 2 ^ 32; decide) ha hab hb
  refine ⟨s1, h1, h7, ?_, h2, ?_, fun fuel hf => kinit1_agrees_32 L a b s hab hroom fuel hf⟩
  · rw [h4]
    simp only [Nat.zero_add]
    apply Nat.mod_eq_of_lt
    rw [specDonated_length]; omega
  · intro h0
    have h2b : listSeg s1.mem s1.freelist (specDonated a b).reverse s.freelist := h2
    rw [h0] at h2b
    exact h2b

/-- C12 (witness): `kinit1` over four pages, called on the pool whose free list
is `[0x80200000, 0x80201000]` and whose counter is 2: the counter ends at 4,
the number of donated pages, and `use_lock` is false. -/
theorem kinit1_donates_witness :
    twoFree.freepages = 2 ∧
    ∃ s1, kinit1 xv6 0x80300000 0x80304000 twoFree = .ok () s1 ∧
      s1.use_lock = false ∧ s1.freepages = 4 :=
  have h := kinit1_donates xv6 twoFree 0x80300000 0x80304000
    ⟨by decide, by decide, by decide⟩ (by decide) (by decide) (by decide) (by decide)
    (by decide)
  ⟨rfl, h.imp fun _ hs => ⟨hs.1, hs.2.1, hs.2.2.1.trans (by decide)⟩⟩

/-! ## Invariant 1 -/

theorem freeList_ne_zero {m : Mem} :
    ∀ (l : List Nat) (p : Nat), FreeList m p l → ∀ x ∈ l, x ≠ 0
  | [], _, _, _, hx => absurd hx (List.not_mem_nil _)
  | y :: ys, _, h, x, hx => by
    obtain ⟨_, h2, h3⟩ := h
    rcases List.mem_cons.1 hx with rfl | hx2
    · exact h2
    · exact freeList_ne_zero ys _ h3 x hx2

theorem freeList_lt {m : Mem} (hb : ∀ a, m a < 256) :
    ∀ (l : List Nat) (p : Nat), p < 2 ^ 32 → FreeList m p l → ∀ x ∈ l, x < 2 ^ 32
  | [], _, _, _, _, hx => absurd hx (List.not_mem_nil _)
  | y :: ys, p, hp, h, x, hx => by
    obtain ⟨h1, _, h3⟩ := h
    rcases List.mem_cons.1 hx with rfl | hx2
    · rw [← h1]; exact hp
    · exact freeList_lt hb ys _ (load32_lt _ _ hb) h3 x hx2

/-- The walk from a node that links to itself never reaches the null pointer. -/
theorem no_freeList_of_self_link {m : Mem} {v : Nat} (hv : v ≠ 0) (hl : load32 m v = v) :
    ∀ l, ¬ FreeList m v l
  | [], h => hv h
  | x :: xs, h => by
    obtain ⟨h1, _, h3⟩ := h
    rw [← h1, hl] at h3
    exact no_freeList_of_self_link hv hl xs h3

/-- The part of a free list from one of its nodes onwards is the free list
headed by that node. -/
theorem freeList_suffix {m : Mem} :
    ∀ (l1 l2 : List Nat) (x p : Nat), FreeList m p (l1 ++ x :: l2) → FreeList m x (x :: l2)
  | [], _, _, _, h => by
    obtain ⟨h1, h2, h3⟩ := h
    exact ⟨rfl, h2, h3⟩
  | _ :: ys, l2, x, _, h => by
    obtain ⟨_, _, h3⟩ := h
    exact freeList_suffix ys l2 x _ h3

/-- No node occurs twice on a free list. -/
theorem freeList_nodup {m : Mem} :
    ∀ (l : List Nat) (p : Nat), FreeList m p l → l.Nodup
  | [], _, _ => List.nodup_nil
  | x :: xs, p, h => by
    obtain ⟨h1, h2, h3⟩ := h
    refine List.nodup_cons.2 ⟨?_, freeList_nodup xs _ h3⟩
    intro hx
    obtain ⟨l1, l2, hsplit⟩ := List.append_of_mem hx
    have ha : FreeList m x (x :: l2) := freeList_suffix l1 l2 x _ (hsplit ▸ h3)
    have hb : FreeList m x (x :: xs) := ⟨rfl, h2, h3⟩
    have he := freeList_unique _ _ _ ha hb
    have hlen := congrArg List.length he
    rw [hsplit] at hlen
    simp only [List.length_cons, List.length_append] at hlen
    omega

/-- Distinct non-null 32-bit addresses: there are fewer than `2 ^ 32` of them. -/
theorem length_lt_of_nodup (l : List Nat) (hd : l.Nodup)
    (h : ∀ x ∈ l, x ≠ 0 ∧ x < 2 ^ 32) : l.length < 2 ^ 32 := by
  have hd0 : (0 :: l).Nodup := List.nodup_cons.2 ⟨fun h0 => (h 0 h0).1 rfl, hd⟩
  have hsub : (0 :: l).toFinset ⊆ Finset.range (2 ^ 32) := by
    intro x hx
    rw [List.mem_toFinset] at hx
    rw [Finset.mem_range]
    rcases List.mem_cons.1 hx with rfl | hx2
    · decide
    · exact (h x hx2).2
  have hcard := Finset.card_le_card hsub
  rw [List.toFinset_card_of_nodup hd0, Finset.card_range, List.length_cons] at hcard
  omega

theorem inv1_kalloc (L : Layout) (s : Kmem) (hc : s.freepages < 2 ^ 32)
    (hne : s.freelist ≠ 0) (h : Inv1 s) : Inv1 (kalloc L s).2 := by
  obtain ⟨l, hl, hcnt⟩ := h
  cases l with
  | nil => exact absurd hl hne
  | cons x xs =>
    obtain ⟨h1, _, h3⟩ := hl
    rw [kalloc_pop s hne]
    refine ⟨xs, by rw [h1]; exact h3, ?_⟩
    show dec32 s.freepages = xs.length
    rw [List.length_cons] at hcnt
    rw [dec32_of_pos (by omega) hc]
    omega

theorem inv1_kfree (L : Layout) (s : Kmem) (v : Nat) (l : List Nat)
    (hk : 0 < L.kend) (hw : s.wf) (hl : FreeList s.mem s.freelist l)
    (hcnt : s.freepages = l.length) (hal : ∀ x ∈ l, x % 4096 = 0)
    (hv : ¬ kfreeRejects L v) (hv32 : v < 2 ^ 32) (hnot : v ∉ l) :
    ∃ s1, kfree L v s = .ok () s1 ∧ Inv1 s1 := by
  by_cases h2 : 2 ≤ s.pagerefcount (pfn L v)
  · exact ⟨_, kfree_keep s hv h2 (hw.refcount_lt _), l, hl, hcnt⟩
  · have hva : v % 4096 = 0 ∧ v ≠ 0 := by
      simp only [kfreeRejects, PGSIZE] at hv; omega
    have hfl : FreeList (store32 (memset s.mem v 1 PGSIZE) v s.freelist) v (v :: l) := by
      refine ⟨rfl, hva.2, ?_⟩
      rw [load32_store32 _ _ _ hw.freelist_lt]
      refine listSeg_congr l _ _ (fun x hx => load32_push _ _ _ _ ?_) hl
      have hxa := hal x hx
      have hne : x ≠ v := fun e => hnot (e ▸ hx)
      simp only [PGSIZE]
      omega
    have hlen : (v :: l).length < 2 ^ 32 :=
      length_lt_of_nodup _ (freeList_nodup _ _ hfl) (fun x hx => by
        rcases List.mem_cons.1 hx with rfl | hx2
        · exact ⟨hva.2, hv32⟩
        · exact ⟨freeList_ne_zero l _ hl x hx2,
            freeList_lt hw.byte_lt l _ hw.freelist_lt hl x hx2⟩)
    refine ⟨_, kfree_reclaim s hv (by omega), v :: l, hfl, ?_⟩
    show inc32 s.freepages = (v :: l).length
    rw [List.length_cons] at hlen ⊢
    simp only [inc32, hcnt]
    omega

/-- Donating distinct accepted pages, none of which is on the free list `l`
of page-aligned nodes, puts them in front of `l`. -/
theorem donate_fresh (L : Layout) (hk : 0 < L.kend) (ps : List Nat) (s : Kmem) (l : List Nat)
    (hs : s.freelist < 2 ^ 32) (hc : s.freepages < 2 ^ 32)
    (hl : FreeList s.mem s.freelist l) (hal : ∀ x ∈ l, x % 4096 = 0)
    (hd : ps.Nodup) (hps : ∀ p ∈ ps, p < 2 ^ 32 ∧ ¬ kfreeRejects L p)
    (hfresh : ∀ q ∈ ps, q ∉ l) :
    ∃ s1, donate L ps s = .ok () s1 ∧
      FreeList s1.mem s1.freelist (ps.reverse ++ l) ∧
      s1.freepages = (s.freepages + ps.length) % 2 ^ 32 ∧
      (∀ p ∈ ps, s1.pagerefcount (pfn L p) = 0) ∧
      (∀ i, (∀ p ∈ ps, i ≠ pfn L p) → s1.pagerefcount i = s.pagerefcount i) ∧
      s1.use_lock = s.use_lock := by
  obtain ⟨s1, h1, h2, h3, h4, h5, h6⟩ := donate_pushes L hk ps s hs hc hd hps
  refine ⟨s1, h1, ?_, h4, h5, h6, donate_use_lock L _ _ _ h1⟩
  refine listSeg_append _ _ _ _ _ h2 (listSeg_congr l _ _ (fun x hx => h3 x ?_) hl)
  intro p hp
  have hpa := (hps p hp).2
  have hxa := hal x hx
  have hne : x ≠ p := fun e => hfresh p hp (e ▸ hx)
  simp only [kfreeRejects, PGSIZE] at hpa ⊢
  omega

/-- Invariant 1 after a donation of fresh pages to a state in which it held. -/
theorem inv1_donate (L : Layout) (hk : 0 < L.kend) (ps : List Nat) (s : Kmem) (l : List Nat)
    (hw : s.wf) (hl : FreeList s.mem s.freelist l) (hcnt : s.freepages = l.length)
    (hal : ∀ x ∈ l, x % 4096 = 0)
    (hd : ps.Nodup) (hps : ∀ p ∈ ps, p < 2 ^ 32 ∧ ¬ kfreeRejects L p)
    (hfresh : ∀ q ∈ ps, q ∉ l) :
    ∃ s1, donate L ps s = .ok () s1 ∧
      FreeList s1.mem s1.freelist (ps.reverse ++ l) ∧
      s1.freepages = (ps.reverse ++ l).length := by
  obtain ⟨s1, h1, h2, h4, _, _, _⟩ :=
    donate_fresh L hk ps s l hw.freelist_lt hw.freepages_lt hl hal hd hps hfresh
  refine ⟨s1, h1, h2, ?_⟩
  have hlen : (ps.reverse ++ l).length < 2 ^ 32 :=
    length_lt_of_nodup _ (freeList_nodup _ _ h2) (fun x hx => by
      refine ⟨freeList_ne_zero _ _ h2 x hx, ?_⟩
      rcases List.mem_append.1 hx with hx1 | hx2
      · exact (hps x (List.mem_reverse.1 hx1)).1
      · exact freeList_lt hw.byte_lt l _ hw.freelist_lt hl x hx2)
  rw [h4, hcnt]
  simp only [List.length_append, List.length_reverse] at hlen ⊢
  rw [Nat.mod_eq_of_lt (by omega)]
  omega

theorem inv1_increfcount (L : Layout) (s : Kmem) (p : Nat) (h : Inv1 s) :
    Inv1 (increfcount L p s).state := by
  by_cases hr : refRejects L p <;> simpa [increfcount, hr, Outcome.state, Inv1] using h

theorem inv1_decrefcount (L : Layout) (s : Kmem) (p : Nat) (h : Inv1 s) :
    Inv1 (decrefcount L p s).state := by
  by_cases hr : refRejects L p <;> simpa [decrefcount, hr, Outcome.state, Inv1] using h

theorem inv1_getrefcount (L : Layout) (s : Kmem) (p : Nat) (h : Inv1 s) :
    Inv1 (getrefcount L p s).state := by
  by_cases hr : refRejects L p <;> simpa [getrefcount, hr, Outcome.state, Inv1] using h

/-- C16 (counterexample): two calls that start with the counter equal to the
number of nodes and end without it.  `kfree` of the accepted address
`0x80200000`, which has count 0 and heads the free list
`[0x80200000, 0x80201000]`, leaves a node that links to itself, so there is
no finite free list to count.  `kinit1` on the pool whose free list is
`[0x80200000]` leaves two nodes and a counter of 1. -/
theorem inv1_broken_by_listed_free_and_kinit1 :
    Inv1 twoFree ∧ ¬ kfreeRejects xv6 0x80200000 ∧
    (kfree xv6 0x80200000 twoFree).returned = true ∧
    ¬ Inv1 (kfree xv6 0x80200000 twoFree).state ∧
    Inv1 oneFree ∧
    (kinit1 xv6 0x80201000 0x80202000 oneFree).returned = true ∧
    ¬ Inv1 (kinit1 xv6 0x80201000 0x80202000 oneFree).state := by
  have hv : ¬ kfreeRejects xv6 0x80200000 := by decide
  obtain ⟨s1, hk, hfl, hcnt⟩ := kinit1_oneFree
  rw [hk, kfree_reclaim twoFree hv (by decide)]
  refine ⟨⟨[0x80200000, 0x80201000], ?_, rfl⟩, hv, rfl, ?_, ⟨[0x80200000], ?_, rfl⟩, rfl, ?_⟩
  · simp [FreeList, listSeg, twoFree, load32, store32]
  · rintro ⟨l, hl, _⟩
    refine no_freeList_of_self_link (v := 0x80200000) (by decide) ?_ l hl
    exact load32_store32 _ _ _ (by decide)
  · simp [FreeList, listSeg, oneFree, load32]
  · rintro ⟨l, hl, hc⟩
    have he := freeList_unique _ _ _ hl hfl
    have hc2 : s1.freepages = l.length := hc
    rw [he, hcnt] at hc2
    simp at hc2

/-- C16 (amended): let the counter equal the number of nodes of the free list
`l`, whose nodes are page-aligned, in a state whose fields hold 32-bit values.
Then the counter equals the number of nodes again after: `kalloc` on a
non-empty pool; `kfree` of an accepted address that is not on the free list;
`freerange` and `kinit2` over a range of the managed zone none of whose pages
is on the free list; `kinit1` over such a range when the free list is empty;
`increfcount`, `decrefcount`, `getrefcount` (also when they panic) and
`numFreePages`.  The ranges end at least two pages below `2 ^ 32`, so that the
32-bit cursor of the loop cannot wrap: the loop with the cursor taken modulo
`2 ^ 32`, followed for more guard tests than there are pages, gives the same
outcome. -/
theorem inv1_preserved (L : Layout) (s : Kmem) (l : List Nat) (v p a b : Nat)
    (hL : L.ok) (hw : s.wf) (hl : FreeList s.mem s.freelist l)
    (hcnt : s.freepages = l.length) (hal : ∀ x ∈ l, x % 4096 = 0) :
    (s.freelist ≠ 0 → Inv1 (kalloc L s).2) ∧
    (¬ kfreeRejects L v → v < 2 ^ 32 → v ∉ l →
      ∃ s1, kfree L v s = .ok () s1 ∧ Inv1 s1) ∧
    (L.kend ≤ a → a ≤ b → b ≤ L.KERNBASE + L.PHYSTOP → b + 2 * PGSIZE ≤ 2 ^ 32 →
      (∀ q ∈ specDonated a b, q ∉ l) →
      (∃ s1, freerange L a b s = .ok () s1 ∧ Inv1 s1) ∧
      (∃ s1, kinit2 L a b s = .ok () s1 ∧ Inv1 s1) ∧
      (∀ fuel, (specDonated a b).length < fuel →
        freerangeLoop32 L b fuel (PGROUNDUP a) s = some (freerange L a b s))) ∧
    (L.kend ≤ a → a ≤ b → b ≤ L.KERNBASE + L.PHYSTOP → b + 2 * PGSIZE ≤ 2 ^ 32 →
      l = [] →
      (∃ s1, kinit1 L a b s = .ok () s1 ∧ Inv1 s1) ∧
      (∀ fuel, (specDonated a b).length < fuel →
        freerangeLoop32 L b fuel (PGROUNDUP a) ⟨false, s.freelist, 0, s.pagerefcount, s.mem⟩
          = some (kinit1 L a b s))) ∧
    Inv1 (increfcount L p s).state ∧ Inv1 (decrefcount L p s).state ∧
    Inv1 (getrefcount L p s).state ∧ Inv1 (numFreePages s).2 := by
  have h1 : Inv1 s := ⟨l, hl, hcnt⟩
  have htop := hL.top_le
  simp only [PGSIZE] at htop
  refine ⟨fun hne => inv1_kalloc L s hw.freepages_lt hne h1,
    fun hv hv32 hnot => inv1_kfree L s v l hL.kend_pos hw hl hcnt hal hv hv32 hnot,
    ?_, ?_, inv1_increfcount L s p h1, inv1_decrefcount L s p h1,
    inv1_getrefcount L s p h1, h1⟩
  · intro ha hab hb hroom hfresh
    obtain ⟨s1, e1, e2, e3⟩ := inv1_donate L hL.kend_pos (specDonated a b) s l hw hl hcnt hal
      (specDonated_nodup a b) (specDonated_accepted hL ha hb) hfresh
    have hfr : freerange L a b s = .ok () s1 := by
      rw [freerange_eq_donate, rangePages_eq_spec b (by omega)]; exact e1
    have hk2 : kinit2 L a b s
        = .ok () ⟨true, s1.freelist, s1.freepages, s1.pagerefcount, s1.mem⟩ := by
      unfold kinit2; rw [hfr]
    have hi : Inv1 s1 := ⟨_, e2, e3⟩
    refine ⟨⟨s1, hfr, hi⟩, ⟨_, hk2, hi⟩, fun fuel hf => ?_⟩
    refine freerange_agrees_32 L a b s hab hroom fuel ?_
    rw [PGROUNDUP_eq_roundUp (by omega), ← specDonated_length]
    exact hf
  · intro ha hab hb hroom hnil
    refine ⟨?_, fun fuel hf => kinit1_agrees_32 L a b s hab hroom fuel hf⟩
    subst hnil
    have h0 : s.freelist = 0 := hl
    obtain ⟨s1, e1, e2, e3⟩ := inv1_donate L hL.kend_pos (specDonated a b)
      ⟨false, s.freelist, 0, s.pagerefcount, s.mem⟩ []
      ⟨hw.freelist_lt, by show 0 < 2 ^ 32; decide, hw.refcount_lt, hw.byte_lt⟩ hl rfl
      (fun _ hx => absurd hx (List.not_mem_nil _))
      (specDonated_nodup a b) (specDonated_accepted hL ha hb)
      (fun _ _ hx => absurd hx (List.not_mem_nil _))
    refine ⟨s1, ?_, _, e2, e3⟩
    show freerange L a b ⟨false, s.freelist, 0, s.pagerefcount, s.mem⟩ = .ok () s1
    rw [freerange_eq_donate, rangePages_eq_spec b (by omega)]; exact e1

/-- C16 (witness): the pool whose free list is `[0x80200000, 0x80201000]`
and whose counter is 2; the calls are `kalloc`, `kfree(0x80202000)` and
`freerange(0x80300000, 0x80304000)`. -/
theorem inv1_preserved_witness :
    Inv1 (kalloc xv6 twoFree).2 ∧
    (∃ s1, kfree xv6 0x80202000 twoFree = .ok () s1 ∧ Inv1 s1) ∧
    ∃ s1, freerange xv6 0x80300000 0x80304000 twoFree = .ok () s1 ∧ Inv1 s1 :=
  have hb : ∀ a, twoFree.mem a < 256 := by
    intro a
    simp only [twoFree, store32]
    split_ifs <;> omega
  have h := inv1_preserved xv6 twoFree [0x80200000, 0x80201000] 0x80202000 0
    0x80300000 0x80304000
    ⟨by decide, by decide, by decide⟩
    ⟨by decide, by decide, fun _ => by simp [twoFree], hb⟩
    (by simp [FreeList, listSeg, twoFree, load32, store32]) rfl (by simp)
  ⟨h.1 (by decide), h.2.1 (by decide) (by decide) (by simp),
    (h.2.2.1 (by decide) (by decide) (by decide) (by decide) (by decide)).1⟩

/-! ## Conservation -/

/-- The state `kalloc` produces when the head pointer is null. -/
theorem kalloc_empty {L : Layout} (s : Kmem) (h : s.freelist = 0) :
    (kalloc L s).2 =
      ⟨s.use_lock, s.freelist, dec32 s.freepages,
        Function.update s.pagerefcount (pfn L 0) 1, s.mem⟩ := by
  simp [kalloc, h]

/-- C19 (evaluation at the failing input): one frame is donated to the
zero-initialised allocator; the first `kalloc` returns it, the second finds
the pool empty and returns null, and the counter is then `2 ^ 32 - 1`, so the
counter plus any number of referenced frames differs from 1, the number of
donated frames. -/
theorem conservation_broken_by_empty_alloc :
    (kinit1 xv6 0x80200000 0x80201000 emptyPool).returned = true ∧
    (kinit1 xv6 0x80200000 0x80201000 emptyPool).state.freepages = 1 ∧
    (kalloc xv6 (kinit1 xv6 0x80200000 0x80201000 emptyPool).state).1 = 0x80200000 ∧
    (kalloc xv6 (kinit1 xv6 0x80200000 0x80201000 emptyPool).state).2.freepages = 0 ∧
    (kalloc xv6 (kalloc xv6 (kinit1 xv6 0x80200000 0x80201000 emptyPool).state).2).1 = 0 ∧
    (kalloc xv6 (kalloc xv6 (kinit1 xv6 0x80200000 0x80201000 emptyPool).state).2).2.freepages
      = 4294967295 ∧
    ∀ k, (kalloc xv6 (kalloc xv6
      (kinit1 xv6 0x80200000 0x80201000 emptyPool).state).2).2.freepages + k ≠ 1 := by
  have hL : xv6.ok := ⟨by decide, by decide, by decide⟩
  have hsp : specDonated 0x80200000 0x80201000 = [0x80200000] := by decide
  obtain ⟨s1, h1, h2, _, h4, _, _, _⟩ :=
    freerange_zone_pushes hL ⟨false, emptyPool.freelist, 0, emptyPool.pagerefcount, emptyPool.mem⟩
      (a := 0x80200000) (b := 0x80201000)
      (by show emptyPool.freelist < 2 ^ 32; decide) (by show 0 < 2 ^ 32; decide)
      (by decide) (by decide) (by decide)
  rw [hsp] at h2 h4
  have hk : kinit1 xv6 0x80200000 0x80201000 emptyPool = .ok () s1 := h1
  obtain ⟨e1, e2, e3⟩ := h2
  have e4 : load32 s1.mem 0x80200000 = 0 := e3
  have hnz : s1.freelist ≠ 0 := by rw [e1]; exact e2
  have hcnt : s1.freepages = 1 := by rw [h4]; rfl
  have hs2 : (kalloc xv6 s1).2.freelist = 0 := by
    rw [kalloc_pop s1 hnz]; show load32 s1.mem s1.freelist = 0; rw [e1]; exact e4
  have hc2 : (kalloc xv6 s1).2.freepages = 0 := by
    rw [kalloc_pop s1 hnz]; show dec32 s1.freepages = 0; rw [hcnt]; decide
  have hc3 : (kalloc xv6 (kalloc xv6 s1).2).2.freepages = 4294967295 := by
    rw [kalloc_empty _ hs2]; show dec32 (kalloc xv6 s1).2.freepages = 4294967295
    rw [hc2]; decide
  rw [hk]
  refine ⟨rfl, hcnt, by rw [kalloc_fst]; exact e1, hc2, by rw [kalloc_fst]; exact hs2, hc3, ?_⟩
  intro k
  show (kalloc xv6 (kalloc xv6 s1).2).2.freepages + k ≠ 1
  rw [hc3]; omega

/-! ## Table bounds -/

theorem donate_rejected {L : Layout} {p : Nat} (ps : List Nat) (s : Kmem)
    (h : kfreeRejects L p) :
    donate L (p :: ps) s = .panicked "kfree"
      ⟨s.use_lock, s.freelist, s.freepages, Function.update s.pagerefcount (pfn L p) 0,
        s.mem⟩ := by
  simp only [donate, kfree_rejected _ h]

/-- The table index `kalloc` writes on an empty pool in the xv6 layout,
`V2P(0) >> PGSHIFT = 0x80000`, is not below the table size `0xE000`. -/
theorem kalloc_empty_index_outside_table :
    emptyPool.freelist = 0 ∧ kallocIndices xv6 emptyPool = [0x80000] ∧
    tableSize xv6 = 0xE000 := by
  decide

/-- C20 (counterexample): `freerange(0, 4096)` in the xv6 layout clears the
table entry of the page at address 0 before `kfree` rejects that page: the
index it uses is `0x80000`, and the table has `0xE000` entries; the loop with
the 32-bit cursor does the same.  And when `PHYSTOP` is not a multiple of the
page size, as with `PHYSTOP = 0xE000800`, `kfree` accepts the address
`0x8E000000` and uses index `0xE000`, the number of entries of the table. -/
theorem freerange_index_outside_table :
    tableSize xv6 = 0xE000 ∧
    freerangeIndices xv6 0 4096 = [0x80000] ∧
    ¬ (∀ i ∈ freerangeIndices xv6 0 4096, i < tableSize xv6) ∧
    (freerange xv6 0 4096 emptyPool).returned = false ∧
    freerangeLoop32 xv6 4096 2 (PGROUNDUP 0) emptyPool
      = some (freerange xv6 0 4096 emptyPool) ∧
    ¬ kfreeRejects oddTop 0x8E000000 ∧
    tableSize oddTop = 0xE000 ∧
    kfreeIndices oddTop 0x8E000000 = [0xE000] ∧
    ¬ (∀ i ∈ kfreeIndices oddTop 0x8E000000, i < tableSize oddTop) := by
  have hp : rangePages 0 4096 = [0] := by decide
  have hi : freerangeIndices xv6 0 4096 = [0x80000] := by
    simp only [freerangeIndices, hp]; decide
  have hk : kfreeIndices oddTop 0x8E000000 = [0xE000] := by decide
  refine ⟨by decide, hi, ?_, ?_, ?_, by decide, by decide, hk, ?_⟩
  · rw [hi]; decide
  · rw [freerange_eq_donate, hp, donate_rejected _ _ (by decide)]
    rfl
  · exact freerange_agrees_32 xv6 0 4096 emptyPool (by decide) (by decide) 2 (by decide)
  · rw [hk]; decide

theorem pfn_lt_tableSize {L : Layout} (hP : L.PHYSTOP % 4096 = 0) {x : Nat}
    (h : x < L.PHYSTOP) : x >>> PGSHIFT < tableSize L := by
  simp only [tableSize, PGSHIFT, Nat.shiftRight_eq_div_pow]
  omega

theorem donateIndices_lt {L : Layout} (hP : L.PHYSTOP % 4096 = 0) :
    ∀ ps : List Nat, (∀ p ∈ ps, ¬ kfreeRejects L p) → ∀ i ∈ donateIndices L ps, i < tableSize L
  | [], _, i, hi => absurd hi (List.not_mem_nil _)
  | p :: ps, h, i, hi => by
    have hp := h p (List.mem_cons_self _ _)
    have hlt : pfn L p < tableSize L := by
      apply pfn_lt_tableSize hP
      simp only [kfreeRejects] at hp; omega
    simp only [donateIndices, if_neg hp, List.mem_cons] at hi
    rcases hi with rfl | rfl | hi
    · exact hlt
    · exact hlt
    · exact donateIndices_lt hP ps (fun q hq => h q (List.mem_cons_of_mem _ hq)) i hi

/-- Outside the indices listed for it, `kfree` leaves the table as it was. -/
theorem kfree_table_outside (L : Layout) (v : Nat) (s : Kmem) (i : Nat)
    (hi : i ∉ kfreeIndices L v) : (kfree L v s).state.pagerefcount i = s.pagerefcount i := by
  by_cases hv : kfreeRejects L v
  · rw [kfree_rejected s hv]; rfl
  · have hne : i ≠ pfn L v := by
      simpa only [kfreeIndices, if_neg hv, List.mem_singleton] using hi
    unfold kfree
    rw [if_neg hv]
    simp only [Outcome.state]
    split_ifs <;> simp only [Function.update_same] at * <;>
      first
        | rfl
        | exact Function.update_noteq hne _ _

/-- Outside the index listed for it, `kalloc` leaves the table as it was. -/
theorem kalloc_table_outside (L : Layout) (s : Kmem) (i : Nat)
    (hi : i ∉ kallocIndices L s) : (kalloc L s).2.pagerefcount i = s.pagerefcount i := by
  have hne : i ≠ pfn L s.freelist := by
    simpa only [kallocIndices, List.mem_singleton] using hi
  rw [kalloc_pagerefcount]
  exact Function.update_noteq hne _ _

/-- Outside the index listed for them, `increfcount` and `decrefcount` leave the
table as it was; `getrefcount` never changes it and returns the entry at the
listed index. -/
theorem ref_table_outside (L : Layout) (p : Nat) (s : Kmem) (i : Nat)
    (hi : i ∉ refIndices L p) :
    (increfcount L p s).state.pagerefcount i = s.pagerefcount i ∧
    (decrefcount L p s).state.pagerefcount i = s.pagerefcount i := by
  by_cases hr : refRejects L p
  · simp [increfcount, decrefcount, hr, Outcome.state]
  · have hne : i ≠ p >>> PGSHIFT := by
      simpa only [refIndices, if_neg hr, List.mem_singleton] using hi
    simp [increfcount, decrefcount, hr, Outcome.state, Function.update_noteq hne]

theorem getrefcount_reads_listed (L : Layout) (p : Nat) (s : Kmem) :
    ∀ i ∈ refIndices L p, getrefcount L p s = .ok (s.pagerefcount i) s := by
  intro i hi
  by_cases hr : refRejects L p
  · simp [refIndices, hr] at hi
  · simp only [refIndices, if_neg hr, List.mem_singleton] at hi
    rw [hi]
    unfold getrefcount
    rw [if_neg hr]

/-- Outside the indices listed for it, the loop of `freerange` leaves the table
as it was, whether it returns or panics. -/
theorem donate_table_outside (L : Layout) (i : Nat) :
    ∀ (ps : List Nat) (s : Kmem), i ∉ donateIndices L ps →
      (donate L ps s).state.pagerefcount i = s.pagerefcount i
  | [], _, _ => rfl
  | q :: qs, s, hi => by
    have hne : i ≠ pfn L q := fun e => hi (by rw [e]; exact List.mem_cons_self _ _)
    by_cases hq : kfreeRejects L q
    · rw [donate_rejected qs s hq]
      exact Function.update_noteq hne _ _
    · have hrest : i ∉ donateIndices L qs := by
        intro hin
        apply hi
        simp only [donateIndices, if_neg hq, List.mem_cons]
        exact Or.inr (Or.inr hin)
      simp only [donate, donate_step s hq]
      rw [donate_table_outside L i qs _ hrest]
      exact Function.update_noteq hne _ _

/-- C20 (amended): with `PHYSTOP` a multiple of the page size, the table has
`PHYSTOP >> 12` entries and the index used is below that number in `kfree`,
`increfcount`, `decrefcount` and `getrefcount` on every path past their
assertion, in `kalloc` when the head pointer is an address `kfree` accepts, and
in `freerange` over a range inside the managed zone that ends at least two
pages below `2 ^ 32` (so that the 32-bit cursor of the loop cannot wrap; the
loop with the cursor taken modulo `2 ^ 32` then gives the same outcome).  The
indices in question are the only places where the operations change the
table, and the entry `getrefcount` returns is the one at its index. -/
theorem table_indices_in_bounds (L : Layout) (s : Kmem) (v p a b : Nat)
    (hP : L.PHYSTOP % 4096 = 0) :
    tableSize L = L.PHYSTOP >>> 12 ∧
    (∀ i ∈ kfreeIndices L v, i < tableSize L) ∧
    (∀ i ∈ refIndices L p, i < tableSize L) ∧
    (¬ kfreeRejects L s.freelist → ∀ i ∈ kallocIndices L s, i < tableSize L) ∧
    (L.ok → L.kend ≤ a → a ≤ b → b ≤ L.KERNBASE + L.PHYSTOP → b + 2 * PGSIZE ≤ 2 ^ 32 →
      (∀ i ∈ freerangeIndices L a b, i < tableSize L) ∧
      (∀ i, i ∉ freerangeIndices L a b →
        (freerange L a b s).state.pagerefcount i = s.pagerefcount i) ∧
      (∀ fuel, (specDonated a b).length < fuel →
        freerangeLoop32 L b fuel (PGROUNDUP a) s = some (freerange L a b s))) ∧
    (∀ i, i ∉ kfreeIndices L v → (kfree L v s).state.pagerefcount i = s.pagerefcount i) ∧
    (∀ i, i ∉ kallocIndices L s → (kalloc L s).2.pagerefcount i = s.pagerefcount i) ∧
    (∀ i, i ∉ refIndices L p →
      (increfcount L p s).state.pagerefcount i = s.pagerefcount i ∧
      (decrefcount L p s).state.pagerefcount i = s.pagerefcount i) ∧
    (∀ i ∈ refIndices L p, getrefcount L p s = .ok (s.pagerefcount i) s) := by
  refine ⟨rfl, ?_, ?_, ?_, ?_, kfree_table_outside L v s, kalloc_table_outside L s,
    ref_table_outside L p s, getrefcount_reads_listed L p s⟩
  · intro i hi
    by_cases hv : kfreeRejects L v
    · simp [kfreeIndices, hv] at hi
    · simp only [kfreeIndices, if_neg hv, List.mem_singleton] at hi
      rw [hi]
      apply pfn_lt_tableSize hP
      simp only [kfreeRejects] at hv; omega
  · intro i hi
    by_cases hr : refRejects L p
    · simp [refIndices, hr] at hi
    · simp only [refIndices, if_neg hr, List.mem_singleton] at hi
      rw [hi]
      apply pfn_lt_tableSize hP
      simp only [refRejects] at hr; omega
  · intro hv i hi
    simp only [kallocIndices, List.mem_singleton] at hi
    rw [hi]
    apply pfn_lt_tableSize hP
    simp only [kfreeRejects] at hv; omega
  · intro hL ha hab hb hroom
    have htop := hL.top_le
    simp only [PGSIZE] at htop
    refine ⟨?_, ?_, fun fuel hf => ?_⟩
    · rw [freerangeIndices, rangePages_eq_spec b (by omega)]
      exact donateIndices_lt hP _ (fun q hq => (specDonated_accepted hL ha hb q hq).2)
    · intro i hi
      rw [freerange_eq_donate]
      exact donate_table_outside L i _ s hi
    · refine freerange_agrees_32 L a b s hab hroom fuel ?_
      rw [PGROUNDUP_eq_roundUp (by omega), ← specDonated_length]
      exact hf

/-- C20 (witness): the xv6 layout, whose `PHYSTOP = 0xE000000` is page-aligned;
the indices `kfree(0x80200000)` and `freerange(0x80200000, 0x80204000)` use. -/
theorem table_indices_in_bounds_witness :
    xv6.PHYSTOP % 4096 = 0 ∧
    kfreeIndices xv6 0x80200000 = [0x200] ∧
    (∀ i ∈ kfreeIndices xv6 0x80200000, i < tableSize xv6) ∧
    (∀ i ∈ freerangeIndices xv6 0x80200000 0x80204000, i < tableSize xv6) :=
  have h := table_indices_in_bounds xv6 emptyPool 0x80200000 0x116000 0x80200000 0x80204000
    (by decide)
  ⟨by decide, by decide, h.2.1,
    (h.2.2.2.2.1 ⟨by decide, by decide, by decide⟩ (by decide) (by decide) (by decide)
      (by decide)).1⟩

/-! ## Invariants of the reachable states -/

theorem head_lt_of_freeList {m : Mem} {p : Nat} {l : List Nat} (h : FreeList m p l)
    (hl : ∀ x ∈ l, x < 2 ^ 32) : p < 2 ^ 32 := by
  cases l with
  | nil =>
    have e : p = 0 := h
    rw [e]; decide
  | cons x xs =>
    obtain ⟨h1, _, _⟩ := h
    rw [h1]; exact hl x (List.mem_cons_self _ _)

/-- Every node a walk from the head visits is a node of the free list. -/
theorem mem_of_walk {m : Mem} :
    ∀ (l1 l : List Nat) (p q : Nat), FreeList m p l → listSeg m p l1 q → ∀ v ∈ l1, v ∈ l
  | [], _, _, _, _, _, _, hv => absurd hv (List.not_mem_nil _)
  | x :: xs, [], p, _, h, h1, _, _ => by
    have e : p = 0 := h
    obtain ⟨a1, a2, _⟩ := h1
    exact absurd (a1.symm.trans e) a2
  | x :: xs, y :: ys, p, q, h, h1, v, hv => by
    obtain ⟨a1, _, a3⟩ := h1
    obtain ⟨b1, _, b3⟩ := h
    have e : x = y := a1.symm.trans b1
    subst e
    rcases List.mem_cons.1 hv with rfl | hv2
    · exact List.mem_cons_self _ _
    · exact List.mem_cons_of_mem _ (mem_of_walk xs ys _ q b3 a3 v hv2)

theorem onFreeList_iff {s : Kmem} {l : List Nat} (h : FreeList s.mem s.freelist l) (v : Nat) :
    OnFreeList s v ↔ v ∈ l :=
  ⟨fun ⟨l1, q, hw, hv⟩ => mem_of_walk l1 l _ q h hw v hv, fun hv => ⟨l, 0, h, hv⟩⟩

/-- Distinct addresses that `kfree` accepts have distinct table indices. -/
theorem pfn_inj {L : Layout} {x y : Nat}
    (hx : ¬ kfreeRejects L x) (hy : ¬ kfreeRejects L y) (hx32 : x < 2 ^ 32) (hy32 : y < 2 ^ 32)
    (h : pfn L x = pfn L y) : x = y := by
  simp only [kfreeRejects, V2P, PGSIZE] at hx hy
  simp only [pfn, V2P, PGSHIFT, Nat.shiftRight_eq_div_pow] at h
  omega

theorem donate_ok_accepted (L : Layout) :
    ∀ (ps : List Nat) (s s1 : Kmem), donate L ps s = .ok () s1 → ∀ p ∈ ps, ¬ kfreeRejects L p
  | [], _, _, _, _, hp => absurd hp (List.not_mem_nil _)
  | q :: qs, s, s1, h, p, hp => by
    by_cases hq : kfreeRejects L q
    · rw [donate_rejected qs s hq] at h
      exact Outcome.noConfusion h
    · rcases List.mem_cons.1 hp with rfl | hp2
      · exact hq
      · simp only [donate, donate_step s hq] at h
        exact donate_ok_accepted L qs _ s1 h p hp2

theorem mem_rangePages {a b p : Nat} (h : p ∈ rangePages a b) : p + 4096 ≤ b := by
  simp only [rangePages, List.mem_map, List.mem_range] at h
  obtain ⟨k, hk, rfl⟩ := h
  omega

theorem rangePages_nodup (a b : Nat) : (rangePages a b).Nodup := by
  simp only [rangePages]
  refine List.Nodup.map ?_ (List.nodup_range _)
  intro x y h
  simp only at h
  omega

theorem good_init (L : Layout) (m : Mem) : Good L (bootState m) [] [] :=
  ⟨rfl, fun _ h => absurd h (List.not_mem_nil _), fun _ h => absurd h (List.not_mem_nil _),
    List.nodup_nil, fun _ h => absurd h (List.not_mem_nil _),
    fun _ h => absurd h (List.not_mem_nil _), by show 0 < 2 ^ 32; decide,
    fun _ => by show 0 < 2 ^ 32; decide⟩

theorem good_range {L : Layout} (hL : L.ok) {s s1 : Kmem} {held l : List Nat} {a b : Nat}
    (g : Good L s held l) (hb : b < 2 ^ 32) (hf : FreshRange s held a b)
    (h : freerange L a b s = .ok () s1) :
    Good L s1 held ((rangePages a b).reverse ++ l) := by
  rw [freerange_eq_donate] at h
  have hacc := donate_ok_accepted L _ _ _ h
  have hps : ∀ p ∈ rangePages a b, p < 2 ^ 32 ∧ ¬ kfreeRejects L p := fun p hp =>
    ⟨by have := mem_rangePages hp; omega, hacc p hp⟩
  have hal : ∀ x ∈ l, x % 4096 = 0 := fun x hx => by
    have := (g.frames x hx).2
    simp only [kfreeRejects, PGSIZE] at this; omega
  obtain ⟨s2, e1, e2, e3, e4, e5, _⟩ := donate_fresh L hL.kend_pos (rangePages a b) s l
    (head_lt_of_freeList g.list (fun x hx => (g.frames x hx).1)) g.count_lt g.list hal
    (rangePages_nodup a b) hps
    (fun q hq hql => (hf q hq).1 ((onFreeList_iff g.list q).2 hql))
  rw [e1] at h
  injection h with _ hs
  subst hs
  refine ⟨e2, ?_, ?_, g.hnodup, g.hframes, ?_, ?_, ?_⟩
  · intro v hv
    rcases List.mem_append.1 hv with h1 | h2
    · exact hps v (List.mem_reverse.1 h1)
    · exact g.frames v h2
  · intro v hv
    rcases List.mem_append.1 hv with h1 | h2
    · exact e4 v (List.mem_reverse.1 h1)
    · by_cases hex : ∃ q ∈ rangePages a b, pfn L v = pfn L q
      · obtain ⟨q, hq, he⟩ := hex
        rw [he]; exact e4 q hq
      · rw [e5 _ (fun q hq he => hex ⟨q, hq, he⟩)]
        exact g.unref v h2
  · intro v hv hvl
    rcases List.mem_append.1 hvl with h1 | h2
    · exact (hf v (List.mem_reverse.1 h1)).2 hv
    · exact g.apart v hv h2
  · rw [e3]; exact Nat.mod_lt _ (by decide)
  · intro i
    by_cases hex : ∃ q ∈ rangePages a b, i = pfn L q
    · obtain ⟨q, hq, he⟩ := hex
      rw [he, e4 q hq]; decide
    · rw [e5 _ (fun q hq he => hex ⟨q, hq, he⟩)]
      exact g.ref_lt i

theorem good_alloc {L : Layout} {s : Kmem} {held l : List Nat} (g : Good L s held l) :
    ∃ l1, Good L (kalloc L s).2
      (if (kalloc L s).1 = 0 then held else (kalloc L s).1 :: held) l1 := by
  rw [kalloc_fst]
  by_cases h0 : s.freelist = 0
  · rw [if_pos h0, kalloc_empty s h0]
    have hnil : l = [] := freeList_unique _ _ _ g.list (by rw [h0]; rfl)
    subst hnil
    refine ⟨[], g.list, g.frames, fun _ h => absurd h (List.not_mem_nil _), g.hnodup,
      g.hframes, g.apart, ?_, ?_⟩
    · exact Nat.mod_lt _ (by decide)
    · intro i
      show Function.update s.pagerefcount (pfn L 0) 1 i < 2 ^ 32
      by_cases hi : i = pfn L 0
      · rw [hi, Function.update_same]; decide
      · rw [Function.update_noteq hi]; exact g.ref_lt i
  · rw [if_neg h0, kalloc_pop s h0]
    have hnd := freeList_nodup _ _ g.list
    cases l with
    | nil => exact absurd g.list h0
    | cons x xs =>
      obtain ⟨h1, _, h3⟩ := g.list
      obtain ⟨hx, hxs⟩ := List.nodup_cons.1 hnd
      rw [h1]
      refine ⟨xs, h3, fun v hv => g.frames v (List.mem_cons_of_mem _ hv), ?_, ?_, ?_, ?_, ?_, ?_⟩
      · intro v hv
        show Function.update s.pagerefcount (pfn L x) 1 (pfn L v) = 0
        have hne : pfn L v ≠ pfn L x := fun he => by
          have hvf := g.frames v (List.mem_cons_of_mem _ hv)
          have hxf := g.frames x (List.mem_cons_self _ _)
          have := pfn_inj hvf.2 hxf.2 hvf.1 hxf.1 he
          exact hx (this ▸ hv)
        rw [Function.update_noteq hne]
        exact g.unref v (List.mem_cons_of_mem _ hv)
      · exact List.nodup_cons.2 ⟨fun hh => g.apart x hh (List.mem_cons_self _ _), g.hnodup⟩
      · intro v hv
        rcases List.mem_cons.1 hv with rfl | hv2
        · exact g.frames _ (List.mem_cons_self _ _)
        · exact g.hframes v hv2
      · intro v hv hvx
        rcases List.mem_cons.1 hv with rfl | hv2
        · exact hx hvx
        · exact g.apart v hv2 (List.mem_cons_of_mem _ hvx)
      · exact Nat.mod_lt _ (by decide)
      · intro i
        show Function.update s.pagerefcount (pfn L x) 1 i < 2 ^ 32
        by_cases hi : i = pfn L x
        · rw [hi, Function.update_same]; decide
        · rw [Function.update_noteq hi]; exact g.ref_lt i

theorem good_free {L : Layout} (hL : L.ok) {s s1 : Kmem} {held l : List Nat} {v : Nat}
    (g : Good L s held l) (hv : v ∈ held) (h : kfree L v s = .ok () s1) :
    ∃ l1, Good L s1 (if s1.pagerefcount (pfn L v) = 0 then held.erase v else held) l1 := by
  obtain ⟨hv32, hacc⟩ := g.hframes v hv
  have hnot : v ∉ l := g.apart v hv
  by_cases h2 : 2 ≤ s.pagerefcount (pfn L v)
  · rw [kfree_keep s hacc h2 (g.ref_lt _)] at h
    injection h with _ hs
    subst hs
    have hne : ¬ (Function.update s.pagerefcount (pfn L v) (s.pagerefcount (pfn L v) - 1)
        (pfn L v) = 0) := by
      rw [Function.update_same]; omega
    rw [if_neg hne]
    refine ⟨l, g.list, g.frames, ?_, g.hnodup, g.hframes, g.apart, g.count_lt, ?_⟩
    · intro x hx
      have hpx : pfn L x ≠ pfn L v := fun he => by
        have := g.unref x hx
        rw [he] at this
        omega
      show Function.update s.pagerefcount (pfn L v) _ (pfn L x) = 0
      rw [Function.update_noteq hpx]
      exact g.unref x hx
    · intro i
      show Function.update s.pagerefcount (pfn L v) _ i < 2 ^ 32
      by_cases hi : i = pfn L v
      · rw [hi, Function.update_same]
        have := g.ref_lt (pfn L v)
        omega
      · rw [Function.update_noteq hi]; exact g.ref_lt i
  · rw [kfree_reclaim s hacc (by omega)] at h
    injection h with _ hs
    subst hs
    have hz : Function.update s.pagerefcount (pfn L v) 0 (pfn L v) = 0 :=
      Function.update_same _ _ _
    rw [if_pos hz]
    have hva : v % 4096 = 0 ∧ v ≠ 0 := by
      have := hL.kend_pos
      simp only [kfreeRejects, PGSIZE] at hacc; omega
    have hhead : s.freelist < 2 ^ 32 :=
      head_lt_of_freeList g.list (fun x hx => (g.frames x hx).1)
    refine ⟨v :: l, ?_, ?_, ?_, g.hnodup.erase v, ?_, ?_, ?_, ?_⟩
    · refine ⟨rfl, hva.2, ?_⟩
      show listSeg _ (load32 (store32 (memset s.mem v 1 PGSIZE) v s.freelist) v) l 0
      rw [load32_store32 _ _ _ hhead]
      refine listSeg_congr l _ _ (fun x hx => load32_push _ _ _ _ ?_) g.list
      have hxa := (g.frames x hx).2
      have hne : x ≠ v := fun e => hnot (e ▸ hx)
      simp only [kfreeRejects, PGSIZE] at hxa ⊢
      omega
    · intro x hx
      rcases List.mem_cons.1 hx with rfl | hx2
      · exact ⟨hv32, hacc⟩
      · exact g.frames x hx2
    · intro x hx
      show Function.update s.pagerefcount (pfn L v) 0 (pfn L x) = 0
      by_cases he : pfn L x = pfn L v
      · rw [he, Function.update_same]
      · rw [Function.update_noteq he]
        rcases List.mem_cons.1 hx with rfl | hx2
        · exact absurd rfl he
        · exact g.unref x hx2
    · intro x hx
      exact g.hframes x (List.mem_of_mem_erase hx)
    · intro x hx hxl
      have hx2 := (List.Nodup.mem_erase_iff g.hnodup).1 hx
      rcases List.mem_cons.1 hxl with rfl | hxl2
      · exact hx2.1 rfl
      · exact g.apart x hx2.2 hxl2
    · exact Nat.mod_lt _ (by decide)
    · intro i
      show Function.update s.pagerefcount (pfn L v) 0 i < 2 ^ 32
      by_cases hi : i = pfn L v
      · rw [hi, Function.update_same]; decide
      · rw [Function.update_noteq hi]; exact g.ref_lt i

/-- Every state reachable with donations of fresh pages only has a proper
free list and satisfies the invariant. -/
theorem reach_good {L : Layout} (hL : L.ok) {P : Kmem → List Nat → Nat → Nat → Prop}
    (hP : ∀ s held a b, P s held a b → FreshRange s held a b) {s : Kmem} {held : List Nat}
    (h : Reach L P s held) : ∃ l, Good L s held l := by
  induction h with
  | init m => exact ⟨[], good_init L m⟩
  | range _ _ hb hp hfr ih =>
    obtain ⟨l, g⟩ := ih
    exact ⟨_, good_range hL g hb (hP _ _ _ _ hp) hfr⟩
  | alloc _ ih =>
    obtain ⟨l, g⟩ := ih
    exact good_alloc g
  | free _ hv hk ih =>
    obtain ⟨l, g⟩ := ih
    exact good_free hL g hv hk

/-! ## Reachable states: the claims -/

theorem freerange_one_page {L : Layout} {p : Nat} (hp : ¬ kfreeRejects L p)
    (h32 : p + 4095 < 2 ^ 32) (s : Kmem) :
    freerange L p (p + 4096) s = .ok () (pushPage L p s) := by
  have hal : p % 4096 = 0 := by
    simp only [kfreeRejects, PGSIZE] at hp; omega
  have hr : PGROUNDUP p = p := by
    simp only [PGROUNDUP, PGSIZE]; omega
  have hn : (p + 4096 - p) / 4096 = 1 := by omega
  have hpages : rangePages p (p + 4096) = [p] := by
    simp only [rangePages, hr, hn]
    rfl
  rw [freerange_eq_donate, hpages]
  simp only [donate, donate_step s hp]
  rfl

theorem not_onFreeList_of_null {s : Kmem} (h : s.freelist = 0) (v : Nat) : ¬ OnFreeList s v :=
  fun hv => List.not_mem_nil v ((onFreeList_iff (l := []) (by rw [FreeList, h]; rfl) v).1 hv)

/-- One donation of the page at `0x80200000` to the zero-initialised allocator
is permitted under each of the range disciplines. -/
theorem reach_donatedOnce {P : Kmem → List Nat → Nat → Nat → Prop}
    (hP : P (bootState (fun _ => 0)) [] 0x80200000 0x80201000) :
    Reach xv6 P donatedOnce [] :=
  Reach.range (Reach.init _) (by decide) (by decide) hP
    (freerange_one_page (by decide) (by decide) _)

theorem fresh_at_boot (m : Mem) (a b : Nat) : FreshRange (bootState m) [] a b :=
  fun p _ => ⟨not_onFreeList_of_null rfl p, List.not_mem_nil p⟩

/-- C17 (counterexample): from the zero-initialised allocator, `freerange` over
the page at `0x80200000`, the same `freerange` again, then `kalloc`.  In the
state reached, the frame at `0x80200000` is the head of the free list and its
reference count is 1. -/
theorem listed_frame_with_count_one :
    ∃ s held, Reach xv6 AnyRange s held ∧
      s.freelist = 0x80200000 ∧ OnFreeList s 0x80200000 ∧
      s.pagerefcount (pfn xv6 0x80200000) = 1 := by
  have r1 : Reach xv6 AnyRange donatedOnce [] := reach_donatedOnce trivial
  have r2 : Reach xv6 AnyRange (pushPage xv6 0x80200000 donatedOnce) [] :=
    Reach.range r1 (by decide) (by decide) trivial
      (freerange_one_page (by decide) (by decide) _)
  have hnz : (pushPage xv6 0x80200000 donatedOnce).freelist ≠ 0 := by
    show (0x80200000 : Nat) ≠ 0; decide
  have hlink : load32 (pushPage xv6 0x80200000 donatedOnce).mem 0x80200000 = 0x80200000 :=
    load32_store32 _ _ _ (by decide)
  have hhead : (kalloc xv6 (pushPage xv6 0x80200000 donatedOnce)).2.freelist = 0x80200000 := by
    rw [kalloc_pop _ hnz]; exact hlink
  refine ⟨_, _, Reach.alloc r2, hhead, ⟨[0x80200000], _, ⟨hhead, by decide, rfl⟩,
    List.mem_cons_self _ _⟩, ?_⟩
  rw [kalloc_pagerefcount]
  exact Function.update_same _ _ _

/-- C17 (amended): in every state reachable from the zero-initialised allocator
by `kalloc`, `kfree` of addresses currently held, and `freerange` over ranges
that contain no page which is on the free list or currently held, every frame
on the free list has reference count 0 and every frame with a reference count
above 0 is absent from the free list. -/
theorem free_frames_unreferenced (L : Layout) (s : Kmem) (held : List Nat)
    (hL : L.ok) (h : Reach L FreshRange s held) :
    (∀ v, OnFreeList s v → s.pagerefcount (pfn L v) = 0) ∧
    (∀ v, 0 < s.pagerefcount (pfn L v) → ¬ OnFreeList s v) := by
  obtain ⟨l, g⟩ := reach_good hL (fun _ _ _ _ hp => hp) h
  have key : ∀ v, OnFreeList s v → s.pagerefcount (pfn L v) = 0 :=
    fun v hv => g.unref v ((onFreeList_iff g.list v).1 hv)
  refine ⟨key, fun v hpos hv => ?_⟩
  have := key v hv
  omega

/-- C17 (witness): the state after one donation and one `kalloc`. -/
theorem free_frames_unreferenced_witness :
    Reach xv6 FreshRange (kalloc xv6 donatedOnce).2 [0x80200000] ∧
    ((∀ v, OnFreeList (kalloc xv6 donatedOnce).2 v →
        (kalloc xv6 donatedOnce).2.pagerefcount (pfn xv6 v) = 0) ∧
      (∀ v, 0 < (kalloc xv6 donatedOnce).2.pagerefcount (pfn xv6 v) →
        ¬ OnFreeList (kalloc xv6 donatedOnce).2 v)) :=
  have h : Reach xv6 FreshRange (kalloc xv6 donatedOnce).2 [0x80200000] :=
    Reach.alloc (reach_donatedOnce (fresh_at_boot _ _ _))
  ⟨h, free_frames_unreferenced xv6 (kalloc xv6 donatedOnce).2 [0x80200000]
    ⟨by decide, by decide, by decide⟩ h⟩

/-- C18 (counterexample): all ranges lie inside the managed zone.  After
`freerange` over the page at `0x80200000` twice, the node links to itself and
the free list is no list of distinct addresses.  After `freerange` over that
page, `kalloc` (which returns it), and `freerange` over it again, `kalloc`
returns the address a second time although it is still held. -/
theorem zone_ranges_break_integrity :
    (∃ s held, Reach xv6 (ZoneRange xv6) s held ∧
      ¬ ∃ l, FreeList s.mem s.freelist l ∧ l.Nodup) ∧
    (∃ s held, Reach xv6 (ZoneRange xv6) s held ∧
      (kalloc xv6 s).1 ≠ 0 ∧ (kalloc xv6 s).1 ∈ held) := by
  have hz : ∀ s held, ZoneRange xv6 s held 0x80200000 0x80201000 :=
    fun _ _ => ⟨by decide, by decide, by decide⟩
  have r1 : Reach xv6 (ZoneRange xv6) donatedOnce [] := reach_donatedOnce (hz _ _)
  constructor
  · have r2 : Reach xv6 (ZoneRange xv6) (pushPage xv6 0x80200000 donatedOnce) [] :=
      Reach.range r1 (by decide) (by decide) (hz _ _)
        (freerange_one_page (by decide) (by decide) _)
    refine ⟨_, _, r2, ?_⟩
    rintro ⟨l, hl, _⟩
    exact no_freeList_of_self_link (v := 0x80200000) (by decide)
      (load32_store32 _ _ _ (by decide)) l hl
  · have r2 : Reach xv6 (ZoneRange xv6) (kalloc xv6 donatedOnce).2 [0x80200000] :=
      Reach.alloc r1
    have r3 : Reach xv6 (ZoneRange xv6)
        (pushPage xv6 0x80200000 (kalloc xv6 donatedOnce).2) [0x80200000] :=
      Reach.range r2 (by decide) (by decide) (hz _ _)
        (freerange_one_page (by decide) (by decide) _)
    refine ⟨_, _, r3, ?_, ?_⟩
    · rw [kalloc_fst]; show (0x80200000 : Nat) ≠ 0; decide
    · rw [kalloc_fst]; exact List.mem_cons_self _ _

/-- C18 (amended): in every state reachable from the zero-initialised allocator
by `kalloc`, `kfree` of addresses currently held, and `freerange` over ranges
inside `[end, KERNBASE + PHYSTOP)` that contain no page which is on the free
list or currently held, the free list is a list of pairwise distinct
addresses, each a multiple of 4096 with `end <= v` and `V2P(v) < PHYSTOP`, and a
non-null address returned by `kalloc` is not among the addresses currently
held. -/
theorem list_integrity (L : Layout) (s : Kmem) (held : List Nat)
    (hL : L.ok) (h : Reach L (FreshZoneRange L) s held) :
    (∃ l, FreeList s.mem s.freelist l ∧ l.Nodup ∧ ∀ v, OnFreeList s v ↔ v ∈ l) ∧
    (∀ v, OnFreeList s v → v % 4096 = 0 ∧ L.kend ≤ v ∧ V2P L v < L.PHYSTOP) ∧
    ((kalloc L s).1 ≠ 0 → (kalloc L s).1 ∉ held) := by
  obtain ⟨l, g⟩ := reach_good hL (fun _ _ _ _ hp => hp.2) h
  refine ⟨⟨l, g.list, freeList_nodup _ _ g.list, onFreeList_iff g.list⟩, ?_, ?_⟩
  · intro v hv
    have := (g.frames v ((onFreeList_iff g.list v).1 hv)).2
    simp only [kfreeRejects, PGSIZE] at this
    omega
  · rw [kalloc_fst]
    intro hne hh
    cases l with
    | nil => exact hne g.list
    | cons x xs =>
      obtain ⟨h1, _, _⟩ := g.list
      exact g.apart _ hh (h1 ▸ List.mem_cons_self _ _)

/-- C18 (witness): the state after one donation inside the zone and one
`kalloc`; the next `kalloc` does not return the held address. -/
theorem list_integrity_witness :
    Reach xv6 (FreshZoneRange xv6) (kalloc xv6 donatedOnce).2 [0x80200000] ∧
    ∃ l, FreeList (kalloc xv6 donatedOnce).2.mem (kalloc xv6 donatedOnce).2.freelist l ∧
      l.Nodup :=
  have h : Reach xv6 (FreshZoneRange xv6) (kalloc xv6 donatedOnce).2 [0x80200000] :=
    Reach.alloc (reach_donatedOnce
      ⟨⟨by decide, by decide, by decide⟩, fresh_at_boot _ _ _⟩)
  ⟨h, (list_integrity xv6 (kalloc xv6 donatedOnce).2 [0x80200000]
    ⟨by decide, by decide, by decide⟩ h).1.imp fun _ hl => ⟨hl.1, hl.2.1⟩⟩

/-! ## The 32-bit cursor at the top of the address space -/

/-- Without the two pages of headroom the loops differ: in a layout whose direct
map ends at `0xFFFFF000`, over the last page of the zone, the loop with exact
arithmetic returns after one page, while the 32-bit cursor makes the guard
true once more and `kfree` panics on the page at `0xFFFFF000`. -/
theorem freerangeLoop32_wraps_at_top :
    topLayout.ok ∧
    (freerange topLayout 0xFFFFE000 0xFFFFF000 emptyPool).returned = true ∧
    (freerangeLoop32 topLayout 0xFFFFF000 3 (PGROUNDUP 0xFFFFE000) emptyPool).map
      Outcome.returned = some false := by
  have hacc : ¬ kfreeRejects topLayout 0xFFFFE000 := by decide
  have hrej : kfreeRejects topLayout 0xFFFFF000 := by decide
  have hr : PGROUNDUP 0xFFFFE000 = 0xFFFFE000 := by decide
  have hpages : rangePages 0xFFFFE000 0xFFFFF000 = [0xFFFFE000] := by decide
  refine ⟨⟨by decide, by decide, by decide⟩, ?_, ?_⟩
  · rw [freerange_eq_donate, hpages]
    simp only [donate, donate_step emptyPool hacc]
    rfl
  · rw [hr]
    have h1 : (0xFFFFE000 + PGSIZE) % 2 ^ 32 = 0xFFFFF000 := by decide
    have h2 : (0xFFFFF000 + PGSIZE) % 2 ^ 32 = 0 := by decide
    simp only [freerangeLoop32, h1, h2, Nat.le_refl, Nat.zero_le, if_true,
      donate_step emptyPool hacc, kfree_rejected _ hrej]
    rfl

/-- In a layout whose direct map stops a page short of `2 ^ 32`, `kfree` rejects
every address in the last page of the address space. -/
theorem kfree_rejects_last_page {L : Layout} (hL : L.ok) {p : Nat} (hp : p < 2 ^ 32)
    (hw : 2 ^ 32 ≤ p + PGSIZE) : kfreeRejects L p := by
  have htop := hL.top_le
  have hbase := hL.base_le
  simp only [PGSIZE] at htop hw
  simp only [kfreeRejects, V2P, PGSIZE]
  omega

/-- Every call of `freerange` that the source's loop with its 32-bit cursor
completes is completed by the loop with exact arithmetic, with the same final
state: when the cursor would wrap, `kfree` panics on the page it stands on. -/
theorem freerangeLoop32_ok_exact {L : Layout} (hL : L.ok) {vend : Nat} (hv : vend < 2 ^ 32) :
    ∀ (fuel p : Nat) (s s1 : Kmem), p < 2 ^ 32 →
      freerangeLoop32 L vend fuel p s = some (.ok () s1) →
      freerangeLoop L vend p s = .ok () s1
  | 0, _, _, _, _, h => by simp [freerangeLoop32] at h
  | fuel + 1, p, s, s1, hp, h => by
    rw [freerangeLoop]
    simp only [freerangeLoop32] at h
    by_cases hw : p + PGSIZE < 2 ^ 32
    · rw [Nat.mod_eq_of_lt hw] at h
      by_cases hg : p + PGSIZE ≤ vend
      · rw [if_pos hg] at h ⊢
        cases hk : kfree L p
          ⟨s.use_lock, s.freelist, s.freepages, Function.update s.pagerefcount (pfn L p) 0,
            s.mem⟩ with
        | ok _ s2 =>
          rw [hk] at h
          exact freerangeLoop32_ok_exact hL hv fuel (p + PGSIZE) s2 s1 hw h
        | panicked _ _ =>
          rw [hk] at h
          simp at h
      · rw [if_neg hg] at h ⊢
        exact Option.some.inj h
    · have hrej : kfreeRejects L p := kfree_rejects_last_page hL hp (by omega)
      have hge : ¬ (p + PGSIZE ≤ vend) := by omega
      rw [if_neg hge]
      by_cases hg : (p + PGSIZE) % 2 ^ 32 ≤ vend
      · rw [if_pos hg, kfree_rejected _ hrej] at h
        simp at h
      · rw [if_neg hg] at h
        exact Option.some.inj h

end Kalloc
